import Mathlib

/-!
Verification of the staleness-checking core of `aver` (pkg/actions/actions.go),
a GitHub Actions version checker.  The Go source is shallowly embedded:

* the version model (`semver`, `parseSemver`, `compare`, `versionsEqual`),
  the reference classifier (`isSHA`), the repository-identity derivation
  (`repoFromAction`) and the staleness decision (`findLatestVersion`) are
  translated as pure functions;
* the four GitHub HTTP operations (`fetchTags`, `getDefaultBranch`,
  `getBranchHead`, `compareCommits`) are functions of an oracle `Remote`
  that supplies, per request, either a transport failure or an HTTP status
  together with an optional decoded body (decoding happens after the status
  check, as in the source);
* the orchestrator `CheckActionVersions` is a fold over the reference list
  carrying the run state (tag cache, skipped set, accumulated findings and
  warnings); in addition to the values the Go function returns it also
  returns the list of remote calls it performed, so that claims about call
  counts are statable.  The trace is ghost instrumentation: it never feeds
  back into the computation.

Numeric fields (version components, commit distances, HTTP statuses) are
embedded as `Nat`/`Int`; the Go code stores them in 64-bit `int`s and no
arithmetic in the translated functions can overflow for the inputs the
claims concern, so wrap-around is not modelled.  Go's byte-level string
primitives (`len`, `strings.HasPrefix`, `strings.Contains` with a one-byte
needle) are embedded at the character level; on the ASCII data these
functions are applied to, byte positions and character positions coincide,
and on non-ASCII data the embedded and original classifiers still agree
because a multi-byte character fails every comparison both sides perform.

Go's `sort.Slice` with comparator `candidates[i].compare(candidates[j]) > 0`
produces some descending ordering with unspecified tie order; it is embedded
as an insertion sort with the reflexive relation `0 ≤ a.compare b`, which is
one such ordering.  Every property proved below is independent of how ties
between `compare`-equal candidates are ordered.
-/

namespace Aver

/-- A tag from the GitHub API (`GitHubTag`): only its name is decoded. -/
structure GitHubTag where
  name : String
deriving DecidableEq, Repr

/-- A parsed semantic version (`semver` in the source): the three numeric
components, absent ones left at zero, and the raw string they came from. -/
structure Semver where
  major : Nat
  minor : Nat
  patch : Nat
  raw : String
deriving DecidableEq, Repr

/-- The numeric value of a string of decimal digits, as `strconv.Atoi`
computes it (the digit strings fed to it here always fit in an `int`). -/
def natOfDigits (ds : List Char) : Nat :=
  ds.foldl (fun n c => n * 10 + (c.toNat - '0'.toNat)) 0

/-- The grammar of `parseSemver`'s regular expression
`^v?(\d+)(?:\.(\d+))?(?:\.(\d+))?$`, applied after the optional leading `v`
has been stripped: one to three dot-separated digit groups and nothing else.
Returns the (major, minor, patch) numbers, absent groups as zero. -/
def parseSemverCore (cs : List Char) : Option (Nat × Nat × Nat) :=
  let p1 := cs.span Char.isDigit
  if p1.1.isEmpty then none
  else
    match p1.2 with
    | [] => some (natOfDigits p1.1, 0, 0)
    | '.' :: r2 =>
      let p2 := r2.span Char.isDigit
      if p2.1.isEmpty then none
      else
        match p2.2 with
        | [] => some (natOfDigits p1.1, natOfDigits p2.1, 0)
        | '.' :: r4 =>
          let p3 := r4.span Char.isDigit
          if p3.1.isEmpty then none
          else if p3.2.isEmpty then
            some (natOfDigits p1.1, natOfDigits p2.1, natOfDigits p3.1)
          else none
        | _ => none
    | _ => none

/-- The optional leading `v` of the version grammar. -/
def stripV : List Char → List Char
  | 'v' :: rest => rest
  | cs0 => cs0

/-- `parseSemver`: parses `v1`, `v1.2`, `v1.2.3` (the `v` optional); any
other shape yields `none`.  The raw string is kept on the value. -/
def parseSemver (version : String) : Option Semver :=
  match parseSemverCore (stripV version.data) with
  | none => none
  | some (ma, mi, pa) => some ⟨ma, mi, pa, version⟩

/-- `(*semver).compare`: -1, 0 or 1 by comparing major, then minor, then
patch. -/
def Semver.compare (s other : Semver) : Int :=
  if s.major ≠ other.major then (if s.major < other.major then -1 else 1)
  else if s.minor ≠ other.minor then (if s.minor < other.minor then -1 else 1)
  else if s.patch ≠ other.patch then (if s.patch < other.patch then -1 else 1)
  else 0

/-- `versionsEqual`: equal as parsed versions when both parse, literal
string equality otherwise. -/
def versionsEqual (v1 v2 : String) : Bool :=
  match parseSemver v1, parseSemver v2 with
  | some sv1, some sv2 => sv1.compare sv2 == 0
  | _, _ => v1 == v2

/-- The per-character test of `isSHA`'s loop. -/
def isHexChar (c : Char) : Bool :=
  ('0' ≤ c && c ≤ '9') || ('a' ≤ c && c ≤ 'f') || ('A' ≤ c && c ≤ 'F')

/-- `isSHA`: the version string looks like a git commit hash — at least 7
characters, all hexadecimal digits. -/
def isSHA (version : String) : Bool :=
  if version.length < 7 then false
  else version.data.all isHexChar

/-- `strings.Split` on the one-character separator `/`, as `repoFromAction`
uses it. -/
def splitOnSlash : List Char → List (List Char)
  | [] => [[]]
  | c :: rest =>
    match splitOnSlash rest with
    | [] => if c = '/' then [[], []] else [[c]]
    | g :: gs => if c = '/' then [] :: g :: gs else (c :: g) :: gs

/-- `repoFromAction`: the first two path segments of an action name
(`owner/repo`), or the name itself when it has fewer than two segments. -/
def repoFromAction (name : String) : String :=
  match splitOnSlash name.data with
  | p0 :: p1 :: _ :: _ => String.mk p0 ++ "/" ++ String.mk p1
  | [p0, p1] => String.mk p0 ++ "/" ++ String.mk p1
  | _ => name

/-- The `ignoreMinor` filter inside `findLatestVersion`: a candidate is
considered only when it is a bare major-only tag — zero minor and patch,
raw form starting with `v` and containing no dot (so exactly `v<digits>`). -/
def isBareMajorTag (sv : Semver) : Bool :=
  sv.minor == 0 && sv.patch == 0 && List.isPrefixOf "v".data sv.raw.data
    && !(sv.raw.data.contains '.')

/-- One iteration of `findLatestVersion`'s `ignoreMinor` scan: keep the
bare-major candidate with the greatest major seen so far (strictly greater
majors replace the current one, so the first of several ties is kept). -/
def updateLatestMajor (acc : Option Semver) (sv : Semver) : Option Semver :=
  if isBareMajorTag sv then
    match acc with
    | none => some sv
    | some lm => if lm.major < sv.major then some sv else acc
  else acc

/-- The descending-sort relation of `findLatestVersion`'s `sort.Slice` call. -/
def svGe (a b : Semver) : Prop := 0 ≤ a.compare b

instance : DecidableRel svGe := fun a b => inferInstanceAs (Decidable (0 ≤ a.compare b))

/-- `findLatestVersion`: parse the current specifier and all tags, sort the
parsed candidates descending, then either (ignoreMinor) return the raw form
of the greatest bare major-only tag when its major exceeds the current
major, or (default) return the raw form of the overall greatest candidate
when it compares strictly greater than the current specifier; `""` when
there is nothing to report. -/
def findLatestVersion (tags : List GitHubTag) (currentVersion : String)
    (ignoreMinor : Bool) : String :=
  match parseSemver currentVersion with
  | none => ""
  | some currentSV =>
    let candidates := tags.filterMap (fun t => parseSemver t.name)
    if candidates.isEmpty then ""
    else
      let sorted := List.insertionSort svGe candidates
      if ignoreMinor then
        match sorted.foldl updateLatestMajor none with
        | some latestMajor =>
          if currentSV.major < latestMajor.major then latestMajor.raw else ""
        | none => ""
      else
        match sorted with
        | [] => ""
        | latest :: _ => if 0 < latest.compare currentSV then latest.raw else ""

/-! ### Basic facts about the version model -/

theorem compare_self (s : Semver) : s.compare s = 0 := by
  unfold Semver.compare
  simp

theorem compare_pos_iff (s t : Semver) :
    0 < s.compare t ↔
      (t.major < s.major ∨ (s.major = t.major ∧
        (t.minor < s.minor ∨ (s.minor = t.minor ∧ t.patch < s.patch)))) := by
  unfold Semver.compare
  split_ifs <;> omega

theorem compare_nonneg_iff (s t : Semver) :
    0 ≤ s.compare t ↔
      (t.major < s.major ∨ (s.major = t.major ∧
        (t.minor < s.minor ∨ (s.minor = t.minor ∧ t.patch ≤ s.patch)))) := by
  unfold Semver.compare
  split_ifs <;> omega

theorem compare_eq_zero_iff (s t : Semver) :
    s.compare t = 0 ↔ (s.major = t.major ∧ s.minor = t.minor ∧ s.patch = t.patch) := by
  unfold Semver.compare
  split_ifs <;> constructor <;> intro h <;> first | omega | cases h

theorem compare_neg_iff (s t : Semver) :
    s.compare t = -1 ↔
      (s.major < t.major ∨ (s.major = t.major ∧
        (s.minor < t.minor ∨ (s.minor = t.minor ∧ s.patch < t.patch)))) := by
  unfold Semver.compare
  split_ifs <;> constructor <;> intro h <;> first | omega | cases h

instance : IsTotal Semver svGe :=
  ⟨by
    intro a b
    unfold svGe
    rw [compare_nonneg_iff, compare_nonneg_iff]
    omega⟩

instance : IsTrans Semver svGe :=
  ⟨by
    intro a b c hab hbc
    unfold svGe at *
    rw [compare_nonneg_iff] at *
    omega⟩

theorem parseSemver_raw {s : String} {sv : Semver} (h : parseSemver s = some sv) :
    sv.raw = s := by
  unfold parseSemver at h
  cases hc : parseSemverCore (stripV s.data) with
  | none => rw [hc] at h; cases h
  | some v =>
    obtain ⟨ma, mi, pa⟩ := v
    rw [hc] at h
    cases h
    rfl

theorem parseSemver_empty : parseSemver "" = none := by decide

theorem parseSemver_raw_self {s : String} {sv : Semver} (h : parseSemver s = some sv) :
    parseSemver sv.raw = some sv := by
  rw [parseSemver_raw h]
  exact h

/-! ### The `ignoreMinor` scan of `findLatestVersion` -/

theorem foldl_ulm_none {l : List Semver} {acc : Option Semver}
    (h : l.foldl updateLatestMajor acc = none) :
    acc = none ∧ ∀ sv ∈ l, isBareMajorTag sv = false := by
  induction l generalizing acc with
  | nil => simpa using h
  | cons x xs ih =>
    rw [List.foldl_cons] at h
    obtain ⟨h1, h2⟩ := ih h
    by_cases hb : isBareMajorTag x = true
    · exfalso
      unfold updateLatestMajor at h1
      rw [hb] at h1
      cases acc <;> simp at h1
      split at h1 <;> cases h1
    · have hacc : updateLatestMajor acc x = acc := by
        unfold updateLatestMajor
        rw [Bool.of_not_eq_true hb]
        simp
      rw [hacc] at h1
      refine ⟨h1, ?_⟩
      intro sv hsv
      rcases List.mem_cons.mp hsv with rfl | hm
      · exact Bool.of_not_eq_true hb
      · exact h2 sv hm

theorem ulm_step (acc : Option Semver) (x : Semver) :
    (isBareMajorTag x = false ∧ updateLatestMajor acc x = acc) ∨
    (isBareMajorTag x = true ∧ ∃ y, updateLatestMajor acc x = some y ∧
      x.major ≤ y.major ∧ (y = x ∨ acc = some y) ∧
      (∀ a, acc = some a → a.major ≤ y.major)) := by
  by_cases hb : isBareMajorTag x = true
  · right
    refine ⟨hb, ?_⟩
    cases acc with
    | none =>
      exact ⟨x, by simp [updateLatestMajor, hb], le_refl _, Or.inl rfl,
        by intro a ha; cases ha⟩
    | some a =>
      by_cases hlt : a.major < x.major
      · exact ⟨x, by simp [updateLatestMajor, hb, hlt], le_refl _, Or.inl rfl,
          by intro a' ha'; cases ha'; omega⟩
      · exact ⟨a, by simp [updateLatestMajor, hb, hlt], by omega, Or.inr rfl,
          by intro a' ha'; cases ha'; omega⟩
  · exact Or.inl ⟨Bool.eq_false_iff.mpr hb,
      by simp [updateLatestMajor, Bool.eq_false_iff.mpr hb]⟩

theorem foldl_ulm_some {l : List Semver} {acc : Option Semver} {lm : Semver}
    (h : l.foldl updateLatestMajor acc = some lm) :
    (acc = some lm ∨ (isBareMajorTag lm = true ∧ lm ∈ l)) ∧
    (∀ sv ∈ l, isBareMajorTag sv = true → sv.major ≤ lm.major) ∧
    (∀ a, acc = some a → a.major ≤ lm.major) := by
  induction l generalizing acc with
  | nil =>
    simp only [List.foldl_nil] at h
    subst h
    exact ⟨Or.inl rfl, by simp, by intro a ha; cases ha; rfl⟩
  | cons x xs ih =>
    rw [List.foldl_cons] at h
    obtain ⟨h1, h2, h3⟩ := ih h
    rcases ulm_step acc x with ⟨hbf, heq⟩ | ⟨hbt, y, hy, hxy, hyor, haccb⟩
    · rw [heq] at h1 h3
      refine ⟨?_, ?_, h3⟩
      · rcases h1 with h1 | ⟨hblm, hmem⟩
        · exact Or.inl h1
        · exact Or.inr ⟨hblm, List.mem_cons_of_mem x hmem⟩
      · intro sv hsv hbsv
        rcases List.mem_cons.mp hsv with rfl | hm
        · rw [hbsv] at hbf; cases hbf
        · exact h2 sv hm hbsv
    · rw [hy] at h1 h3
      have hylm : y.major ≤ lm.major := h3 y rfl
      refine ⟨?_, ?_, ?_⟩
      · rcases h1 with h1 | ⟨hblm, hmem⟩
        · cases h1
          rcases hyor with rfl | hacc
          · exact Or.inr ⟨hbt, List.mem_cons_self lm xs⟩
          · exact Or.inl hacc
        · exact Or.inr ⟨hblm, List.mem_cons_of_mem x hmem⟩
      · intro sv hsv hbsv
        rcases List.mem_cons.mp hsv with rfl | hm
        · omega
        · exact h2 sv hm hbsv
      · intro a ha
        have := haccb a ha
        omega

theorem foldl_ulm_exists {l : List Semver} {sv : Semver}
    (hm : sv ∈ l) (hb : isBareMajorTag sv = true) :
    ∃ lm, l.foldl updateLatestMajor none = some lm := by
  cases hf : l.foldl updateLatestMajor none with
  | some lm => exact ⟨lm, rfl⟩
  | none =>
    have := (foldl_ulm_none hf).2 sv hm
    rw [hb] at this
    cases this

/-! ### Unfolding `findLatestVersion` branch by branch -/

theorem flv_unparseable {tags : List GitHubTag} {cur : String} {im : Bool}
    (hc : parseSemver cur = none) : findLatestVersion tags cur im = "" := by
  unfold findLatestVersion
  rw [hc]

theorem flv_no_candidates {tags : List GitHubTag} {cur : String} {c : Semver} {im : Bool}
    (hc : parseSemver cur = some c)
    (he : tags.filterMap (fun t => parseSemver t.name) = []) :
    findLatestVersion tags cur im = "" := by
  unfold findLatestVersion
  rw [hc]
  simp [he]

theorem sorted_ne_nil {l : List Semver} (h : l ≠ []) :
    List.insertionSort svGe l ≠ [] := by
  intro hs
  apply h
  have := List.perm_insertionSort svGe l
  rw [hs] at this
  exact this.symm.eq_nil

theorem flv_default_eq {tags : List GitHubTag} {cur : String} {c : Semver}
    (hc : parseSemver cur = some c)
    (hne : tags.filterMap (fun t => parseSemver t.name) ≠ []) :
    ∃ latest rest,
      List.insertionSort svGe (tags.filterMap (fun t => parseSemver t.name)) =
        latest :: rest ∧
      findLatestVersion tags cur false =
        (if 0 < latest.compare c then latest.raw else "") := by
  cases hs : List.insertionSort svGe (tags.filterMap (fun t => parseSemver t.name)) with
  | nil => exact absurd hs (sorted_ne_nil hne)
  | cons latest rest =>
    refine ⟨latest, rest, rfl, ?_⟩
    have hie : (tags.filterMap (fun t => parseSemver t.name)).isEmpty = false := by
      simpa using hne
    simp [findLatestVersion, hc, hie, hs]

theorem flv_ignore_eq {tags : List GitHubTag} {cur : String} {c : Semver}
    (hc : parseSemver cur = some c)
    (hne : tags.filterMap (fun t => parseSemver t.name) ≠ []) :
    findLatestVersion tags cur true =
      (match (List.insertionSort svGe
          (tags.filterMap (fun t => parseSemver t.name))).foldl updateLatestMajor none with
      | some lm => if c.major < lm.major then lm.raw else ""
      | none => "") := by
  have hie : (tags.filterMap (fun t => parseSemver t.name)).isEmpty = false := by
    simpa using hne
  simp [findLatestVersion, hc, hie]

theorem cand_parse {tags : List GitHubTag} {sv : Semver}
    (h : sv ∈ tags.filterMap (fun t => parseSemver t.name)) :
    parseSemver sv.raw = some sv := by
  obtain ⟨t, _, hp⟩ := List.mem_filterMap.mp h
  exact parseSemver_raw_self hp

theorem cand_raw_ne_empty {tags : List GitHubTag} {sv : Semver}
    (h : sv ∈ tags.filterMap (fun t => parseSemver t.name)) : sv.raw ≠ "" := by
  intro he
  have hp := cand_parse h
  rw [he, parseSemver_empty] at hp
  cases hp

/-- Whenever `findLatestVersion` reports a candidate, the current specifier
parses, the reported string parses, and the reported version is strictly
greater in magnitude than the current one. -/
theorem flv_result {tags : List GitHubTag} {cur : String} {im : Bool}
    (h : findLatestVersion tags cur im ≠ "") :
    ∃ c l, parseSemver cur = some c ∧
      parseSemver (findLatestVersion tags cur im) = some l ∧ 0 < l.compare c := by
  cases hc : parseSemver cur with
  | none => exact absurd (flv_unparseable hc) h
  | some c =>
    by_cases hne : tags.filterMap (fun t => parseSemver t.name) = []
    · exact absurd (flv_no_candidates hc hne) h
    · cases im with
      | false =>
        obtain ⟨latest, rest, hs, heq⟩ := flv_default_eq hc hne
        rw [heq] at h ⊢
        by_cases hcmp : 0 < latest.compare c
        · rw [if_pos hcmp] at h ⊢
          have hmem : latest ∈ tags.filterMap (fun t => parseSemver t.name) := by
            rw [← List.mem_insertionSort svGe (l := tags.filterMap (fun t => parseSemver t.name))]
            rw [hs]
            exact List.mem_cons_self latest rest
          exact ⟨c, latest, rfl, cand_parse hmem, hcmp⟩
        · rw [if_neg hcmp] at h
          exact absurd rfl h
      | true =>
        rw [flv_ignore_eq hc hne] at h ⊢
        cases hf : (List.insertionSort svGe
            (tags.filterMap (fun t => parseSemver t.name))).foldl updateLatestMajor none with
        | none =>
          simp only [hf] at h
          exact absurd rfl h
        | some lm =>
          simp only [hf] at h ⊢
          by_cases hlt : c.major < lm.major
          · rw [if_pos hlt] at h ⊢
            rcases (foldl_ulm_some hf).1 with h1 | ⟨_, hmem⟩
            · cases h1
            · have hmc : lm ∈ tags.filterMap (fun t => parseSemver t.name) :=
                (List.mem_insertionSort svGe).mp hmem
              exact ⟨c, lm, rfl, cand_parse hmc, (compare_pos_iff lm c).mpr (Or.inl hlt)⟩
          · rw [if_neg hlt] at h
            exact absurd rfl h

/-! ### The claims -/

/-- The tag set of the spec's precision-contract example. -/
def exampleTags : List GitHubTag :=
  [⟨"v1"⟩, ⟨"v1.0.0"⟩, ⟨"v1.0.1"⟩, ⟨"v1.1.0"⟩, ⟨"v1.2.0"⟩, ⟨"v2"⟩, ⟨"v2.0.0"⟩,
   ⟨"v2.1.0"⟩, ⟨"v2.1.1"⟩]

/-- C1: evaluation of the code at the spec's own example.  The claim (and
the repository's README and its `TestFindLatestVersion` test) require that,
under the default strictness, a current specifier `"v2"` with no minor
component yields no finding on this tag set, since no strictly greater
major exists.  The code instead returns the magnitude-greatest tag
`"v2.1.1"`: the default branch of `findLatestVersion` compares the overall
greatest candidate against the current version and never consults which
components the current specifier declared. -/
theorem c1_default_mode_ignores_precision :
    findLatestVersion exampleTags "v2" false = "v2.1.1" := by decide

/-- C2: under `ignoreMinor` (majorOnly strictness), `findLatestVersion`
reports a newer version iff some tag parses to a bare major-only tag whose
major exceeds the current specifier's major; and whatever it reports is
itself such a bare major-only tag, never a full-form tag. -/
theorem c2_majorOnly_staleness (tags : List GitHubTag) (cur : String) (c : Semver)
    (hc : parseSemver cur = some c) :
    ((findLatestVersion tags cur true ≠ "") ↔
      ∃ t ∈ tags, ∃ sv, parseSemver t.name = some sv ∧
        isBareMajorTag sv = true ∧ c.major < sv.major) ∧
    (findLatestVersion tags cur true ≠ "" →
      ∃ sv, parseSemver (findLatestVersion tags cur true) = some sv ∧
        isBareMajorTag sv = true ∧ c.major < sv.major) := by
  by_cases hne : tags.filterMap (fun t => parseSemver t.name) = []
  · constructor
    · rw [flv_no_candidates hc hne]
      constructor
      · intro h; exact absurd rfl h
      · rintro ⟨t, ht, sv, hp, -, -⟩
        have : sv ∈ tags.filterMap (fun t => parseSemver t.name) :=
          List.mem_filterMap.mpr ⟨t, ht, hp⟩
        rw [hne] at this
        cases this
    · rw [flv_no_candidates hc hne]
      intro h; exact absurd rfl h
  · rw [flv_ignore_eq hc hne]
    cases hf : (List.insertionSort svGe
        (tags.filterMap (fun t => parseSemver t.name))).foldl updateLatestMajor none with
    | none =>
      constructor
      · constructor
        · intro h; exact absurd rfl h
        · rintro ⟨t, ht, sv, hp, hb, -⟩
          have hmem : sv ∈ List.insertionSort svGe
              (tags.filterMap (fun t => parseSemver t.name)) :=
            (List.mem_insertionSort svGe).mpr (List.mem_filterMap.mpr ⟨t, ht, hp⟩)
          have := (foldl_ulm_none hf).2 sv hmem
          rw [hb] at this
          cases this
      · intro h; exact absurd rfl h
    | some lm =>
      obtain ⟨h1, h2, -⟩ := foldl_ulm_some hf
      rcases h1 with h1 | ⟨hblm, hmemlm⟩
      · cases h1
      · have hmc : lm ∈ tags.filterMap (fun t => parseSemver t.name) :=
          (List.mem_insertionSort svGe).mp hmemlm
        obtain ⟨t0, ht0, hp0⟩ := List.mem_filterMap.mp hmc
        dsimp only
        by_cases hlt : c.major < lm.major
        · rw [if_pos hlt]
          constructor
          · exact iff_of_true (cand_raw_ne_empty hmc)
              ⟨t0, ht0, lm, hp0, hblm, hlt⟩
          · intro _
            exact ⟨lm, cand_parse hmc, hblm, hlt⟩
        · rw [if_neg hlt]
          constructor
          · constructor
            · intro h; exact absurd rfl h
            · rintro ⟨t, ht, sv, hp, hb, hltsv⟩
              have hmem : sv ∈ List.insertionSort svGe
                  (tags.filterMap (fun t => parseSemver t.name)) :=
                (List.mem_insertionSort svGe).mpr (List.mem_filterMap.mpr ⟨t, ht, hp⟩)
              have := h2 sv hmem hb
              omega
          · intro h; exact absurd rfl h

/-- C2 witness: the majorOnly decision at a concrete input — a bare `v7`
tag makes `v6` stale. -/
theorem c2_majorOnly_staleness_witness :
    findLatestVersion [⟨"v7"⟩, ⟨"v6.3.0"⟩] "v6" true ≠ "" :=
  ((c2_majorOnly_staleness [⟨"v7"⟩, ⟨"v6.3.0"⟩] "v6" ⟨6, 0, 0, "v6"⟩ (by decide)).1).mpr
    ⟨⟨"v7"⟩, by decide, ⟨7, 0, 0, "v7"⟩, by decide, by decide, by decide⟩

/-- A string of 41 hexadecimal characters. -/
def fortyOneHexChars : String := String.mk (List.replicate 41 'a')

/-- C3 counterexample: `isSHA` accepts a 41-character all-hex string, so the
classifier is not bounded above by 40 characters as the claim states. -/
theorem c3_counterexample :
    isSHA fortyOneHexChars = true ∧ fortyOneHexChars.length = 41 := by decide

/-- C3 (amended): `isSHA` returns true iff the string is at least 7
characters long and every character is a hexadecimal digit
(case-insensitive); in particular strings shorter than 7 characters are
never classified as hash pins.  (There is no 40-character upper bound.) -/
theorem c3_isSHA_amended (s : String) :
    isSHA s = true ↔ (7 ≤ s.length ∧ ∀ c ∈ s.data, isHexChar c = true) := by
  unfold isSHA
  by_cases hl : s.length < 7
  · rw [if_pos hl]
    constructor
    · intro h; cases h
    · rintro ⟨h7, -⟩; omega
  · rw [if_neg hl, List.all_eq_true]
    constructor
    · intro h; exact ⟨by omega, h⟩
    · rintro ⟨-, h⟩; exact h

/-- C3 witness: the amended classifier at a concrete input. -/
theorem c3_isSHA_amended_witness : isSHA "a1b2c3d" = true :=
  (c3_isSHA_amended "a1b2c3d").mpr ⟨by decide, by decide⟩

/-- C9: `compare` is the lexicographic comparison on
(major, minor-or-0, patch-or-0): it is reflexive (`compare x x = 0`),
strict-transitive (`-1` composes), and the parses of `"v1"` and `"v1.0.0"`
— equal numeric fields, different component presence — compare equal. -/
theorem c9_compare_is_lexicographic :
    (∀ x : Semver, x.compare x = 0) ∧
    (∀ a b c : Semver, a.compare b = -1 → b.compare c = -1 → a.compare c = -1) ∧
    (∃ s1 s2, parseSemver "v1" = some s1 ∧ parseSemver "v1.0.0" = some s2 ∧
      s1.compare s2 = 0) := by
  refine ⟨compare_self, ?_, ?_⟩
  · intro a b c hab hbc
    rw [compare_neg_iff] at hab hbc ⊢
    omega
  · exact ⟨⟨1, 0, 0, "v1"⟩, ⟨1, 0, 0, "v1.0.0"⟩, by decide, by decide, by decide⟩

/-- C9 witness: transitivity applied at concrete values. -/
theorem c9_compare_is_lexicographic_witness :
    Semver.compare ⟨1, 0, 0, "v1"⟩ ⟨2, 5, 0, "v2.5"⟩ = -1 :=
  c9_compare_is_lexicographic.2.1 ⟨1, 0, 0, "v1"⟩ ⟨1, 4, 2, "v1.4.2"⟩ ⟨2, 5, 0, "v2.5"⟩
    (by decide) (by decide)

/-! ### The remote (GitHub API) boundary

The four HTTP helpers each issue one request and then branch on the
response: a transport failure, a status check (with `fetchTags` and
`getDefaultBranch` — and only those two — distinguishing 404/403 as
`ErrRepoNotAccessible`), and a body decode.  The oracle `Remote` supplies
the outcome of each possible request; `Option` on the body models JSON
decoding success or failure, which the source checks only after the status.
-/

/-- Repository info from the API (`GitHubRepo`). -/
structure GitHubRepo where
  defaultBranch : String
deriving DecidableEq, Repr

/-- A git reference from the API (`GitHubRef`); the nested `Object.SHA` is
flattened to the single field the source reads. -/
structure GitHubRef where
  sha : String
deriving DecidableEq, Repr

/-- The compare API response (`GitHubCompare`). -/
structure GitHubCompare where
  aheadBy : Int
  behindBy : Int
  status : String
deriving DecidableEq, Repr

/-- What one HTTP request can come back as: a transport error from
`client.Do`, or a response with a status code and (if anyone decodes it) an
optionally well-formed body. -/
inductive RemoteResp (β : Type) where
  | transportErr (msg : String)
  | httpResp (status : Nat) (body : Option β)

/-- The remote endpoint: one field per API route the source calls. -/
structure Remote where
  tagsResp : String → RemoteResp (List GitHubTag)
  repoResp : String → RemoteResp GitHubRepo
  refResp : String → String → RemoteResp GitHubRef
  compareResp : String → String → String → RemoteResp GitHubCompare

/-- The error taxonomy of the source: `ErrRepoNotAccessible{Repo, Status}`
versus every other (generic) error. -/
inductive RErr where
  | notAccessible (repo : String) (status : Nat)
  | generic (msg : String)
deriving DecidableEq, Repr

/-- The message of `fmt.Errorf("GitHub API returned status %d", ...)`. -/
def statusMsg (status : Nat) : String :=
  "GitHub API returned status " ++ toString status

/-- The message of a JSON decode failure. -/
def decodeFailMsg : String := "failed to decode response body"

/-- `fetchTags`: 404/403 are `ErrRepoNotAccessible`, any other non-200
status is a generic error, and only then is the body decoded. -/
def fetchTags (remote : Remote) (repo : String) : Except RErr (List GitHubTag) :=
  match remote.tagsResp repo with
  | .transportErr msg => .error (.generic msg)
  | .httpResp status body =>
    if status = 404 ∨ status = 403 then .error (.notAccessible repo status)
    else if status ≠ 200 then .error (.generic (statusMsg status))
    else
      match body with
      | some tags => .ok tags
      | none => .error (.generic decodeFailMsg)

/-- `getDefaultBranch`: same status handling as `fetchTags`. -/
def getDefaultBranch (remote : Remote) (repo : String) : Except RErr String :=
  match remote.repoResp repo with
  | .transportErr msg => .error (.generic msg)
  | .httpResp status body =>
    if status = 404 ∨ status = 403 then .error (.notAccessible repo status)
    else if status ≠ 200 then .error (.generic (statusMsg status))
    else
      match body with
      | some repoInfo => .ok repoInfo.defaultBranch
      | none => .error (.generic decodeFailMsg)

/-- `getBranchHead`: note that, unlike `fetchTags` and `getDefaultBranch`,
the source treats every non-200 status — 404 and 403 included — as the
generic status error. -/
def getBranchHead (remote : Remote) (repo branch : String) : Except RErr String :=
  match remote.refResp repo branch with
  | .transportErr msg => .error (.generic msg)
  | .httpResp status body =>
    if status ≠ 200 then .error (.generic (statusMsg status))
    else
      match body with
      | some ref => .ok ref.sha
      | none => .error (.generic decodeFailMsg)

/-- `compareCommits`: like `getBranchHead`, no 404/403 distinction; returns
the `ahead_by` field. -/
def compareCommits (remote : Remote) (repo baseSHA hd : String) : Except RErr Int :=
  match remote.compareResp repo baseSHA hd with
  | .transportErr msg => .error (.generic msg)
  | .httpResp status body =>
    if status ≠ 200 then .error (.generic (statusMsg status))
    else
      match body with
      | some cp => .ok cp.aheadBy
      | none => .error (.generic decodeFailMsg)

/-- One remote request, recorded for the ghost trace. -/
inductive RemoteCall where
  | tags (repo : String)
  | repoInfo (repo : String)
  | branchHead (repo branch : String)
  | commitCompare (repo base hd : String)
deriving DecidableEq, Repr

/-- The result of `checkSHAStatus` (`shaStatus` in the source). -/
structure ShaStatus where
  latestSHA : String
  commitsBehind : Int
deriving DecidableEq, Repr

/-- `checkSHAStatus`: resolve the default branch, then its head; when the
pinned hash and the head are literal prefixes of one another report zero
commits behind without calling compare; otherwise report the compare
result.  The second component is the list of requests issued. -/
def checkSHAStatus (remote : Remote) (repo sha : String) :
    Except RErr ShaStatus × List RemoteCall :=
  match getDefaultBranch remote repo with
  | .error e => (.error e, [.repoInfo repo])
  | .ok defaultBranch =>
    match getBranchHead remote repo defaultBranch with
    | .error e => (.error e, [.repoInfo repo, .branchHead repo defaultBranch])
    | .ok latestSHA =>
      if sha.data.isPrefixOf latestSHA.data || latestSHA.data.isPrefixOf sha.data then
        (.ok ⟨latestSHA, 0⟩, [.repoInfo repo, .branchHead repo defaultBranch])
      else
        match compareCommits remote repo sha defaultBranch with
        | .error e =>
          (.error e,
            [.repoInfo repo, .branchHead repo defaultBranch,
             .commitCompare repo sha defaultBranch])
        | .ok behindBy =>
          (.ok ⟨latestSHA, behindBy⟩,
            [.repoInfo repo, .branchHead repo defaultBranch,
             .commitCompare repo sha defaultBranch])

/-! ### The resolution orchestrator (`CheckActionVersions`) -/

/-- A parsed `uses:` reference (`ActionReference`). -/
structure ActionReference where
  name : String
  version : String
  file : String
deriving DecidableEq, Repr

/-- An outdated-version finding (`OutdatedAction`). -/
structure OutdatedAction where
  file : String
  name : String
  currentVersion : String
  latestVersion : String
deriving DecidableEq, Repr

/-- A commits-behind finding (`SHAPinnedAction`). -/
structure SHAPinnedAction where
  file : String
  name : String
  currentSHA : String
  latestSHA : String
  commitsBehind : Int
deriving DecidableEq, Repr

/-- `CheckOptions`. -/
structure CheckOptions where
  ignoreSHA : Bool
  ignoreMinor : Bool
deriving DecidableEq, Repr

/-- `CheckResult`. -/
structure CheckResult where
  outdated : List OutdatedAction
  shaPinned : List SHAPinnedAction
  warnings : List String
deriving DecidableEq, Repr

/-- The run-aborting error `fmt.Errorf("failed to check %s: %w", name, err)`:
the triggering reference's name together with the wrapped cause. -/
structure CheckErr where
  actionName : String
  cause : RErr
deriving DecidableEq, Repr

/-- The mutable state of the orchestrator's loop: the tag cache (`tagCache`,
an insert-once map represented as an association list), the
known-inaccessible repository set, and the three accumulators of
`CheckResult`. -/
structure RunState where
  cache : List (String × List GitHubTag)
  skipped : List String
  outdated : List OutdatedAction
  shaPinned : List SHAPinnedAction
  warnings : List String
deriving DecidableEq, Repr

/-- The state at the start of a run. -/
def initialState : RunState := ⟨[], [], [], [], []⟩

/-- `tagCache.getTags`: answer from the cache, otherwise fetch once and
remember the result.  Also returns the updated cache and the requests
issued. -/
def getTags (remote : Remote) (cache : List (String × List GitHubTag))
    (repo : String) :
    Except RErr (List GitHubTag) × List (String × List GitHubTag) × List RemoteCall :=
  match cache.lookup repo with
  | some tags => (.ok tags, cache, [])
  | none =>
    match fetchTags remote repo with
    | .error e => (.error e, cache, [.tags repo])
    | .ok tags => (.ok tags, (repo, tags) :: cache, [.tags repo])

/-- The warning `fmt.Sprintf("skipping %s: repository not accessible", name)`. -/
def warnInaccessible (name : String) : String :=
  "skipping " ++ name ++ ": repository not accessible"

/-- The warning `fmt.Sprintf("skipping %s: %v", name, err)` of the SHA path. -/
def warnGeneric (name msg : String) : String :=
  "skipping " ++ name ++ ": " ++ msg

/-- One iteration of `CheckActionVersions`' loop over the references:
returns the updated state, the remote requests issued, and the error that
aborts the whole run, if any. -/
def checkStep (remote : Remote) (opts : CheckOptions) (s : RunState)
    (action : ActionReference) : RunState × List RemoteCall × Option CheckErr :=
  let repo := repoFromAction action.name
  if s.skipped.contains repo then (s, [], none)
  else if isSHA action.version then
    if opts.ignoreSHA then (s, [], none)
    else
      match checkSHAStatus remote repo action.version with
      | (.error (.notAccessible _ _), calls) =>
        ({ s with warnings := s.warnings ++ [warnInaccessible action.name],
                  skipped := s.skipped ++ [repo] }, calls, none)
      | (.error (.generic msg), calls) =>
        ({ s with warnings := s.warnings ++ [warnGeneric action.name msg] }, calls, none)
      | (.ok shaInfo, calls) =>
        if 0 < shaInfo.commitsBehind then
          ({ s with shaPinned := s.shaPinned ++
              [⟨action.file, action.name, action.version, shaInfo.latestSHA,
                shaInfo.commitsBehind⟩] }, calls, none)
        else (s, calls, none)
  else
    match getTags remote s.cache repo with
    | (.error (.notAccessible _ _), cache2, calls) =>
      ({ s with cache := cache2,
                warnings := s.warnings ++ [warnInaccessible action.name],
                skipped := s.skipped ++ [repo] }, calls, none)
    | (.error (.generic msg), cache2, calls) =>
      ({ s with cache := cache2 }, calls, some ⟨action.name, .generic msg⟩)
    | (.ok tags, cache2, calls) =>
      let latestVersion := findLatestVersion tags action.version opts.ignoreMinor
      if latestVersion = "" then ({ s with cache := cache2 }, calls, none)
      else if versionsEqual action.version latestVersion then
        ({ s with cache := cache2 }, calls, none)
      else
        ({ s with cache := cache2,
                  outdated := s.outdated ++
                    [⟨action.file, action.name, action.version, latestVersion⟩] },
          calls, none)

/-- The loop of `CheckActionVersions`: run the references in order,
stopping at the first run-aborting error (the Go `return` inside the loop). -/
def checkLoop (remote : Remote) (opts : CheckOptions) :
    RunState → List ActionReference → RunState × List RemoteCall × Option CheckErr
  | s, [] => (s, [], none)
  | s, action :: rest =>
    match checkStep remote opts s action with
    | (s2, calls, some e) => (s2, calls, some e)
    | (s2, calls, none) =>
      let r := checkLoop remote opts s2 rest
      (r.1, calls ++ r.2.1, r.2.2)

/-- `CheckActionVersions`: the all-up-to-date flag, the tri-partite result,
the propagated error if the run aborted, and (ghost) the requests issued. -/
def CheckActionVersions (remote : Remote) (actions : List ActionReference)
    (opts : CheckOptions) : Bool × CheckResult × Option CheckErr × List RemoteCall :=
  let r := checkLoop remote opts initialState actions
  let result : CheckResult := ⟨r.1.outdated, r.1.shaPinned, r.1.warnings⟩
  match r.2.2 with
  | some e => (false, result, some e, r.2.1)
  | none => (result.outdated.isEmpty && result.shaPinned.isEmpty, result, none, r.2.1)

/-! ### Facts about the remote boundary and the trace -/

/-- The repository a remote request addresses. -/
def callRepo : RemoteCall → String
  | .tags r => r
  | .repoInfo r => r
  | .branchHead r _ => r
  | .commitCompare r _ _ => r

/-- Whether a request is a tag-list fetch for repository `R`. -/
def tagsCallOn (R : String) : RemoteCall → Bool
  | .tags r => r == R
  | _ => false

/-- Whether a request addresses repository `R`. -/
def callOnRepo (R : String) : RemoteCall → Bool :=
  fun cl => callRepo cl == R

theorem tagsCallOn_false_of_ne {R : String} {cl : RemoteCall}
    (h : callRepo cl ≠ R) : tagsCallOn R cl = false := by
  cases cl with
  | tags r => simpa [tagsCallOn, callRepo] using fun he => h he
  | repoInfo r => rfl
  | branchHead r b => rfl
  | commitCompare r b hd => rfl

theorem callOnRepo_false_of_ne {R : String} {cl : RemoteCall}
    (h : callRepo cl ≠ R) : callOnRepo R cl = false := by
  simpa [callOnRepo] using fun he => h he

theorem sha_calls_repo (remote : Remote) (repo sha : String) :
    ∀ cl ∈ (checkSHAStatus remote repo sha).2, callRepo cl = repo := by
  unfold checkSHAStatus
  split
  · intro cl hcl
    simp only [List.mem_singleton] at hcl
    subst hcl; rfl
  · split
    · intro cl hcl
      simp only [List.mem_cons, List.mem_singleton, List.not_mem_nil, or_false] at hcl
      rcases hcl with rfl | rfl <;> rfl
    · split
      · intro cl hcl
        simp only [List.mem_cons, List.mem_singleton, List.not_mem_nil, or_false] at hcl
        rcases hcl with rfl | rfl <;> rfl
      · split <;>
          · intro cl hcl
            simp only [List.mem_cons, List.mem_singleton, List.not_mem_nil, or_false] at hcl
            rcases hcl with rfl | rfl | rfl <;> rfl

theorem sha_calls_no_tags (remote : Remote) (repo sha : String) :
    ∀ cl ∈ (checkSHAStatus remote repo sha).2, ∀ R, tagsCallOn R cl = false := by
  unfold checkSHAStatus
  split
  · intro cl hcl R
    simp only [List.mem_singleton] at hcl
    subst hcl; rfl
  · split
    · intro cl hcl R
      simp only [List.mem_cons, List.mem_singleton, List.not_mem_nil, or_false] at hcl
      rcases hcl with rfl | rfl <;> rfl
    · split
      · intro cl hcl R
        simp only [List.mem_cons, List.mem_singleton, List.not_mem_nil, or_false] at hcl
        rcases hcl with rfl | rfl <;> rfl
      · split <;>
          · intro cl hcl R
            simp only [List.mem_cons, List.mem_singleton, List.not_mem_nil, or_false] at hcl
            rcases hcl with rfl | rfl | rfl <;> rfl

/-- The remote behaves normally for repository `R`: every request made of
it comes back 200 with a well-formed body. -/
def remoteOkFor (remote : Remote) (R : String) : Prop :=
  (∃ ts, remote.tagsResp R = .httpResp 200 (some ts)) ∧
  (∃ ri, remote.repoResp R = .httpResp 200 (some ri)) ∧
  (∀ br, ∃ rf, remote.refResp R br = .httpResp 200 (some rf)) ∧
  (∀ b hd, ∃ cp, remote.compareResp R b hd = .httpResp 200 (some cp))

/-- Repository `R` is inaccessible: the two first-contact routes report
not-found or forbidden. -/
def repoInaccessibleFor (remote : Remote) (R : String) : Prop :=
  (∃ st bt, (st = 404 ∨ st = 403) ∧ remote.tagsResp R = .httpResp st bt) ∧
  (∃ st br, (st = 404 ∨ st = 403) ∧ remote.repoResp R = .httpResp st br)

theorem checkSHAStatus_ok_of_remoteOk {remote : Remote} {R : String} (sha : String)
    (hok : remoteOkFor remote R) :
    ∃ info calls, checkSHAStatus remote R sha = (.ok info, calls) := by
  obtain ⟨-, ⟨ri, hri⟩, href, hcmp⟩ := hok
  have hdb : getDefaultBranch remote R = .ok ri.defaultBranch := by
    unfold getDefaultBranch
    rw [hri]
    simp
  obtain ⟨rf, hrf⟩ := href ri.defaultBranch
  have hbh : getBranchHead remote R ri.defaultBranch = .ok rf.sha := by
    unfold getBranchHead
    rw [hrf]
    simp
  unfold checkSHAStatus
  rw [hdb]
  dsimp only
  rw [hbh]
  dsimp only
  split
  · exact ⟨_, _, rfl⟩
  · obtain ⟨cp, hcp⟩ := hcmp sha ri.defaultBranch
    have hcc : compareCommits remote R sha ri.defaultBranch = .ok cp.aheadBy := by
      unfold compareCommits
      rw [hcp]
      simp
    rw [hcc]
    dsimp only
    exact ⟨_, _, rfl⟩

theorem checkSHAStatus_inacc {remote : Remote} {R : String} (sha : String)
    (hin : repoInaccessibleFor remote R) :
    ∃ st, (st = 404 ∨ st = 403) ∧
      checkSHAStatus remote R sha = (.error (.notAccessible R st), [.repoInfo R]) := by
  obtain ⟨-, st, br, hst, hbr⟩ := hin
  have hdb : getDefaultBranch remote R = .error (.notAccessible R st) := by
    unfold getDefaultBranch
    rw [hbr]
    dsimp only
    rw [if_pos hst]
  refine ⟨st, hst, ?_⟩
  unfold checkSHAStatus
  rw [hdb]

theorem fetchTags_ok_of_remoteOk {remote : Remote} {R : String}
    (hok : remoteOkFor remote R) : ∃ ts, fetchTags remote R = .ok ts := by
  obtain ⟨⟨ts, hts⟩, -, -, -⟩ := hok
  refine ⟨ts, ?_⟩
  unfold fetchTags
  rw [hts]
  simp

theorem fetchTags_inacc {remote : Remote} {R : String}
    (hin : repoInaccessibleFor remote R) :
    ∃ st, (st = 404 ∨ st = 403) ∧ fetchTags remote R = .error (.notAccessible R st) := by
  obtain ⟨⟨st, bt, hst, hbt⟩, -⟩ := hin
  refine ⟨st, hst, ?_⟩
  unfold fetchTags
  rw [hbt]
  dsimp only
  rw [if_pos hst]

/-! ### Case analysis of one orchestrator step -/

theorem getTags_hit {remote : Remote} {cache : List (String × List GitHubTag)}
    {repo : String} {tags : List GitHubTag} (h : cache.lookup repo = some tags) :
    getTags remote cache repo = (.ok tags, cache, []) := by
  unfold getTags
  rw [h]

theorem getTags_miss_err {remote : Remote} {cache : List (String × List GitHubTag)}
    {repo : String} {e : RErr} (h : cache.lookup repo = none)
    (hf : fetchTags remote repo = .error e) :
    getTags remote cache repo = (.error e, cache, [.tags repo]) := by
  unfold getTags
  rw [h]
  dsimp only
  rw [hf]

theorem getTags_miss_ok {remote : Remote} {cache : List (String × List GitHubTag)}
    {repo : String} {tags : List GitHubTag} (h : cache.lookup repo = none)
    (hf : fetchTags remote repo = .ok tags) :
    getTags remote cache repo = (.ok tags, (repo, tags) :: cache, [.tags repo]) := by
  unfold getTags
  rw [h]
  dsimp only
  rw [hf]

/-- Every run of `checkStep` is one of eight shapes; to prove something of
a step, prove it of each shape. -/
theorem checkStep_elim (remote : Remote) (opts : CheckOptions) (s : RunState)
    (a : ActionReference) (P : RunState × List RemoteCall × Option CheckErr → Prop)
    (hskip : s.skipped.contains (repoFromAction a.name) = true → P (s, [], none))
    (hshaIgnore : s.skipped.contains (repoFromAction a.name) = false →
      isSHA a.version = true → opts.ignoreSHA = true → P (s, [], none))
    (hshaNA : ∀ rp st calls, s.skipped.contains (repoFromAction a.name) = false →
      isSHA a.version = true → opts.ignoreSHA = false →
      checkSHAStatus remote (repoFromAction a.name) a.version =
        (.error (.notAccessible rp st), calls) →
      P ({ s with
            warnings := s.warnings ++ [warnInaccessible a.name],
            skipped := s.skipped ++ [repoFromAction a.name] }, calls, none))
    (hshaG : ∀ msg calls, s.skipped.contains (repoFromAction a.name) = false →
      isSHA a.version = true → opts.ignoreSHA = false →
      checkSHAStatus remote (repoFromAction a.name) a.version =
        (.error (.generic msg), calls) →
      P ({ s with warnings := s.warnings ++ [warnGeneric a.name msg] }, calls, none))
    (hshaOk : ∀ info calls, s.skipped.contains (repoFromAction a.name) = false →
      isSHA a.version = true → opts.ignoreSHA = false →
      checkSHAStatus remote (repoFromAction a.name) a.version = (.ok info, calls) →
      P ((if 0 < info.commitsBehind then
          { s with
            shaPinned := s.shaPinned ++
              [⟨a.file, a.name, a.version, info.latestSHA, info.commitsBehind⟩] }
        else s), calls, none))
    (htNA : ∀ rp st cache2 calls, s.skipped.contains (repoFromAction a.name) = false →
      isSHA a.version = false →
      getTags remote s.cache (repoFromAction a.name) =
        (.error (.notAccessible rp st), cache2, calls) →
      P ({ s with
            cache := cache2,
            warnings := s.warnings ++ [warnInaccessible a.name],
            skipped := s.skipped ++ [repoFromAction a.name] }, calls, none))
    (htG : ∀ msg cache2 calls, s.skipped.contains (repoFromAction a.name) = false →
      isSHA a.version = false →
      getTags remote s.cache (repoFromAction a.name) =
        (.error (.generic msg), cache2, calls) →
      P ({ s with cache := cache2 }, calls, some ⟨a.name, .generic msg⟩))
    (htOk : ∀ tags cache2 calls, s.skipped.contains (repoFromAction a.name) = false →
      isSHA a.version = false →
      getTags remote s.cache (repoFromAction a.name) = (.ok tags, cache2, calls) →
      P ((if findLatestVersion tags a.version opts.ignoreMinor = "" then
            { s with cache := cache2 }
          else if versionsEqual a.version (findLatestVersion tags a.version opts.ignoreMinor) then
            { s with cache := cache2 }
          else
            { s with
              cache := cache2,
              outdated := s.outdated ++
                [⟨a.file, a.name, a.version,
                  findLatestVersion tags a.version opts.ignoreMinor⟩] }), calls, none)) :
    P (checkStep remote opts s a) := by
  by_cases h1 : s.skipped.contains (repoFromAction a.name) = true
  · have h1m : repoFromAction a.name ∈ s.skipped := by simpa using h1
    have heq : checkStep remote opts s a = (s, [], none) := by
      simp [checkStep, h1, h1m]
    rw [heq]
    exact hskip h1
  · replace h1 : s.skipped.contains (repoFromAction a.name) = false := by
      simpa using h1
    have h1m : repoFromAction a.name ∉ s.skipped := by simpa using h1
    by_cases h2 : isSHA a.version = true
    · by_cases h3 : opts.ignoreSHA = true
      · have heq : checkStep remote opts s a = (s, [], none) := by
          simp [checkStep, h1, h1m, h2, h3]
        rw [heq]
        exact hshaIgnore h1 h2 h3
      · replace h3 : opts.ignoreSHA = false := by simpa using h3
        rcases hss : checkSHAStatus remote (repoFromAction a.name) a.version with ⟨res, calls⟩
        cases res with
        | error e =>
          cases e with
          | notAccessible rp st =>
            have heq : checkStep remote opts s a =
                ({ s with
                    warnings := s.warnings ++ [warnInaccessible a.name],
                    skipped := s.skipped ++ [repoFromAction a.name] }, calls, none) := by
              simp [checkStep, h1, h1m, h2, h3, hss]
            rw [heq]
            exact hshaNA rp st calls h1 h2 h3 hss
          | generic msg =>
            have heq : checkStep remote opts s a =
                ({ s with warnings := s.warnings ++ [warnGeneric a.name msg] },
                  calls, none) := by
              simp [checkStep, h1, h1m, h2, h3, hss]
            rw [heq]
            exact hshaG msg calls h1 h2 h3 hss
        | ok info =>
          have heq : checkStep remote opts s a =
              ((if 0 < info.commitsBehind then
                  { s with
                    shaPinned := s.shaPinned ++
                      [⟨a.file, a.name, a.version, info.latestSHA, info.commitsBehind⟩] }
                else s), calls, none) := by
            by_cases hcb : 0 < info.commitsBehind
            · simp [checkStep, h1, h1m, h2, h3, hss, hcb]
            · simp [checkStep, h1, h1m, h2, h3, hss, hcb]
          rw [heq]
          exact hshaOk info calls h1 h2 h3 hss
    · replace h2 : isSHA a.version = false := by simpa using h2
      rcases hgt : getTags remote s.cache (repoFromAction a.name) with ⟨res, cache2, calls⟩
      cases res with
      | error e =>
        cases e with
        | notAccessible rp st =>
          have heq : checkStep remote opts s a =
              ({ s with
                  cache := cache2,
                  warnings := s.warnings ++ [warnInaccessible a.name],
                  skipped := s.skipped ++ [repoFromAction a.name] }, calls, none) := by
            simp [checkStep, h1, h1m, h2, hgt]
          rw [heq]
          exact htNA rp st cache2 calls h1 h2 hgt
        | generic msg =>
          have heq : checkStep remote opts s a =
              ({ s with cache := cache2 }, calls, some ⟨a.name, .generic msg⟩) := by
            simp [checkStep, h1, h1m, h2, hgt]
          rw [heq]
          exact htG msg cache2 calls h1 h2 hgt
      | ok tags =>
        have heq : checkStep remote opts s a =
            ((if findLatestVersion tags a.version opts.ignoreMinor = "" then
                { s with cache := cache2 }
              else if versionsEqual a.version
                  (findLatestVersion tags a.version opts.ignoreMinor) then
                { s with cache := cache2 }
              else
                { s with
                  cache := cache2,
                  outdated := s.outdated ++
                    [⟨a.file, a.name, a.version,
                      findLatestVersion tags a.version opts.ignoreMinor⟩] }),
              calls, none) := by
          by_cases hfl : findLatestVersion tags a.version opts.ignoreMinor = ""
          · simp [checkStep, h1, h1m, h2, hgt, hfl]
          · by_cases hve : versionsEqual a.version
                (findLatestVersion tags a.version opts.ignoreMinor) = true
            · simp [checkStep, h1, h1m, h2, hgt, hfl, hve]
            · replace hve := Bool.eq_false_iff.mpr hve
              simp [checkStep, h1, h1m, h2, hgt, hfl, hve]
        rw [heq]
        exact htOk tags cache2 calls h1 h2 hgt

theorem getTags_trace (remote : Remote) (cache : List (String × List GitHubTag))
    (repo : String) :
    (getTags remote cache repo).2.2 = [] ∨ (getTags remote cache repo).2.2 = [.tags repo] := by
  unfold getTags
  cases h : cache.lookup repo with
  | some tags => simp
  | none =>
    dsimp only
    cases hf : fetchTags remote repo <;> simp

/-- Direct equations for the determined branches of `checkStep`. -/
theorem checkStep_skip_eq {remote : Remote} {opts : CheckOptions} {s : RunState}
    {a : ActionReference}
    (h1 : s.skipped.contains (repoFromAction a.name) = true) :
    checkStep remote opts s a = (s, [], none) := by
  have h1m : repoFromAction a.name ∈ s.skipped := by simpa using h1
  simp [checkStep, h1, h1m]

theorem checkStep_shaIgnore_eq {remote : Remote} {opts : CheckOptions} {s : RunState}
    {a : ActionReference}
    (h1 : s.skipped.contains (repoFromAction a.name) = false)
    (h2 : isSHA a.version = true) (h3 : opts.ignoreSHA = true) :
    checkStep remote opts s a = (s, [], none) := by
  have h1m : repoFromAction a.name ∉ s.skipped := by simpa using h1
  simp [checkStep, h1, h1m, h2, h3]

theorem checkStep_shaNA_eq {remote : Remote} {opts : CheckOptions} {s : RunState}
    {a : ActionReference} {rp : String} {st : Nat} {calls : List RemoteCall}
    (h1 : s.skipped.contains (repoFromAction a.name) = false)
    (h2 : isSHA a.version = true) (h3 : opts.ignoreSHA = false)
    (hss : checkSHAStatus remote (repoFromAction a.name) a.version =
      (.error (.notAccessible rp st), calls)) :
    checkStep remote opts s a =
      ({ s with
          warnings := s.warnings ++ [warnInaccessible a.name],
          skipped := s.skipped ++ [repoFromAction a.name] }, calls, none) := by
  have h1m : repoFromAction a.name ∉ s.skipped := by simpa using h1
  simp [checkStep, h1, h1m, h2, h3, hss]

theorem checkStep_shaG_eq {remote : Remote} {opts : CheckOptions} {s : RunState}
    {a : ActionReference} {msg : String} {calls : List RemoteCall}
    (h1 : s.skipped.contains (repoFromAction a.name) = false)
    (h2 : isSHA a.version = true) (h3 : opts.ignoreSHA = false)
    (hss : checkSHAStatus remote (repoFromAction a.name) a.version =
      (.error (.generic msg), calls)) :
    checkStep remote opts s a =
      ({ s with warnings := s.warnings ++ [warnGeneric a.name msg] }, calls, none) := by
  have h1m : repoFromAction a.name ∉ s.skipped := by simpa using h1
  simp [checkStep, h1, h1m, h2, h3, hss]

theorem checkStep_shaOk_eq {remote : Remote} {opts : CheckOptions} {s : RunState}
    {a : ActionReference} {info : ShaStatus} {calls : List RemoteCall}
    (h1 : s.skipped.contains (repoFromAction a.name) = false)
    (h2 : isSHA a.version = true) (h3 : opts.ignoreSHA = false)
    (hss : checkSHAStatus remote (repoFromAction a.name) a.version = (.ok info, calls)) :
    checkStep remote opts s a =
      ((if 0 < info.commitsBehind then
          { s with
            shaPinned := s.shaPinned ++
              [⟨a.file, a.name, a.version, info.latestSHA, info.commitsBehind⟩] }
        else s), calls, none) := by
  have h1m : repoFromAction a.name ∉ s.skipped := by simpa using h1
  by_cases hcb : 0 < info.commitsBehind
  · simp [checkStep, h1, h1m, h2, h3, hss, hcb]
  · simp [checkStep, h1, h1m, h2, h3, hss, hcb]

theorem checkStep_tagsNA_eq {remote : Remote} {opts : CheckOptions} {s : RunState}
    {a : ActionReference} {rp : String} {st : Nat}
    {cache2 : List (String × List GitHubTag)} {calls : List RemoteCall}
    (h1 : s.skipped.contains (repoFromAction a.name) = false)
    (h2 : isSHA a.version = false)
    (hgt : getTags remote s.cache (repoFromAction a.name) =
      (.error (.notAccessible rp st), cache2, calls)) :
    checkStep remote opts s a =
      ({ s with
          cache := cache2,
          warnings := s.warnings ++ [warnInaccessible a.name],
          skipped := s.skipped ++ [repoFromAction a.name] }, calls, none) := by
  have h1m : repoFromAction a.name ∉ s.skipped := by simpa using h1
  simp [checkStep, h1, h1m, h2, hgt]

theorem checkStep_tagsG_eq {remote : Remote} {opts : CheckOptions} {s : RunState}
    {a : ActionReference} {msg : String}
    {cache2 : List (String × List GitHubTag)} {calls : List RemoteCall}
    (h1 : s.skipped.contains (repoFromAction a.name) = false)
    (h2 : isSHA a.version = false)
    (hgt : getTags remote s.cache (repoFromAction a.name) =
      (.error (.generic msg), cache2, calls)) :
    checkStep remote opts s a =
      ({ s with cache := cache2 }, calls, some ⟨a.name, .generic msg⟩) := by
  have h1m : repoFromAction a.name ∉ s.skipped := by simpa using h1
  simp [checkStep, h1, h1m, h2, hgt]

theorem checkStep_tagsOk_eq {remote : Remote} {opts : CheckOptions} {s : RunState}
    {a : ActionReference} {tags : List GitHubTag}
    {cache2 : List (String × List GitHubTag)} {calls : List RemoteCall}
    (h1 : s.skipped.contains (repoFromAction a.name) = false)
    (h2 : isSHA a.version = false)
    (hgt : getTags remote s.cache (repoFromAction a.name) = (.ok tags, cache2, calls)) :
    checkStep remote opts s a =
      ((if findLatestVersion tags a.version opts.ignoreMinor = "" then
          { s with cache := cache2 }
        else if versionsEqual a.version (findLatestVersion tags a.version opts.ignoreMinor) then
          { s with cache := cache2 }
        else
          { s with
            cache := cache2,
            outdated := s.outdated ++
              [⟨a.file, a.name, a.version,
                findLatestVersion tags a.version opts.ignoreMinor⟩] }), calls, none) := by
  have h1m : repoFromAction a.name ∉ s.skipped := by simpa using h1
  by_cases hfl : findLatestVersion tags a.version opts.ignoreMinor = ""
  · simp [checkStep, h1, h1m, h2, hgt, hfl]
  · by_cases hve : versionsEqual a.version
        (findLatestVersion tags a.version opts.ignoreMinor) = true
    · simp [checkStep, h1, h1m, h2, hgt, hfl, hve]
    · replace hve := Bool.eq_false_iff.mpr hve
      simp [checkStep, h1, h1m, h2, hgt, hfl, hve]

/-- Every request a step issues addresses the repository identity of the
reference being processed. -/
theorem step_calls_repo (remote : Remote) (opts : CheckOptions) (s : RunState)
    (a : ActionReference) :
    ∀ cl ∈ (checkStep remote opts s a).2.1, callRepo cl = repoFromAction a.name := by
  refine checkStep_elim remote opts s a
    (fun r => ∀ cl ∈ r.2.1, callRepo cl = repoFromAction a.name) ?_ ?_ ?_ ?_ ?_ ?_ ?_ ?_
  · intro _ cl hcl; simp at hcl
  · intro _ _ _ cl hcl; simp at hcl
  · intro rp st calls _ _ _ hss
    have h := sha_calls_repo remote (repoFromAction a.name) a.version
    rw [hss] at h
    exact h
  · intro msg calls _ _ _ hss
    have h := sha_calls_repo remote (repoFromAction a.name) a.version
    rw [hss] at h
    exact h
  · intro info calls _ _ _ hss
    have h := sha_calls_repo remote (repoFromAction a.name) a.version
    rw [hss] at h
    exact h
  · intro rp st cache2 calls _ _ hgt
    have h := getTags_trace remote s.cache (repoFromAction a.name)
    rw [hgt] at h
    simp only at h
    rcases h with rfl | rfl
    · intro cl hcl; simp at hcl
    · intro cl hcl
      simp only [List.mem_singleton] at hcl
      subst hcl; rfl
  · intro msg cache2 calls _ _ hgt
    have h := getTags_trace remote s.cache (repoFromAction a.name)
    rw [hgt] at h
    simp only at h
    rcases h with rfl | rfl
    · intro cl hcl; simp at hcl
    · intro cl hcl
      simp only [List.mem_singleton] at hcl
      subst hcl; rfl
  · intro tags cache2 calls _ _ hgt
    have h := getTags_trace remote s.cache (repoFromAction a.name)
    rw [hgt] at h
    simp only at h
    rcases h with rfl | rfl
    · intro cl hcl; simp at hcl
    · intro cl hcl
      simp only [List.mem_singleton] at hcl
      subst hcl; rfl

/-- C4: commit distance for hash pins.  With the default branch and its
head resolved, (i) a pin that is a literal prefix of the head (or vice
versa) reports zero commits behind and the trace shows no compare request;
(ii) otherwise the compare result (commits the head is ahead of the pin) is
reported; and (iii) the orchestrator step only ever appends a
`SHAPinnedAction` whose `commitsBehind` is strictly positive. -/
theorem c4_sha_commit_distance (remote : Remote) (repo sha branch hd : String)
    (hdb : getDefaultBranch remote repo = .ok branch)
    (hbh : getBranchHead remote repo branch = .ok hd) :
    ((sha.data.isPrefixOf hd.data || hd.data.isPrefixOf sha.data) = true →
      checkSHAStatus remote repo sha =
        (.ok ⟨hd, 0⟩, [.repoInfo repo, .branchHead repo branch])) ∧
    ((sha.data.isPrefixOf hd.data || hd.data.isPrefixOf sha.data) = false →
      ∀ n, compareCommits remote repo sha branch = .ok n →
        checkSHAStatus remote repo sha =
          (.ok ⟨hd, n⟩, [.repoInfo repo, .branchHead repo branch,
            .commitCompare repo sha branch])) ∧
    (∀ opts s a, ∀ p ∈ (checkStep remote opts s a).1.shaPinned,
      p ∈ s.shaPinned ∨ 0 < p.commitsBehind) := by
  have hstep : checkSHAStatus remote repo sha =
      (if sha.data.isPrefixOf hd.data || hd.data.isPrefixOf sha.data then
        ((.ok ⟨hd, 0⟩ : Except RErr ShaStatus),
          [.repoInfo repo, .branchHead repo branch])
      else
        match compareCommits remote repo sha branch with
        | .error e =>
          (.error e, [.repoInfo repo, .branchHead repo branch,
            .commitCompare repo sha branch])
        | .ok behindBy =>
          (.ok ⟨hd, behindBy⟩, [.repoInfo repo, .branchHead repo branch,
            .commitCompare repo sha branch])) := by
    unfold checkSHAStatus
    rw [hdb]
    dsimp only
    rw [hbh]
  refine ⟨?_, ?_, ?_⟩
  · intro hpre
    rw [hstep, if_pos hpre]
  · intro hpre n hcmp
    rw [hstep, if_neg (by simp [hpre])]
    rw [hcmp]
  · intro opts s a
    refine checkStep_elim remote opts s a
      (fun r => ∀ p ∈ r.1.shaPinned, p ∈ s.shaPinned ∨ 0 < p.commitsBehind)
      ?_ ?_ ?_ ?_ ?_ ?_ ?_ ?_
    · intro _ p hp; exact Or.inl hp
    · intro _ _ _ p hp; exact Or.inl hp
    · intro rp st calls _ _ _ _ p hp; exact Or.inl hp
    · intro msg calls _ _ _ _ p hp; exact Or.inl hp
    · intro info calls _ _ _ _
      by_cases hcb : 0 < info.commitsBehind
      · rw [if_pos hcb]
        intro p hp
        rcases List.mem_append.mp hp with hp | hp
        · exact Or.inl hp
        · simp only [List.mem_singleton] at hp
          subst hp
          exact Or.inr hcb
      · rw [if_neg hcb]
        intro p hp; exact Or.inl hp
    · intro rp st cache2 calls _ _ _ p hp; exact Or.inl hp
    · intro msg cache2 calls _ _ _ p hp; exact Or.inl hp
    · intro tags cache2 calls _ _ _
      by_cases hfl : findLatestVersion tags a.version opts.ignoreMinor = ""
      · rw [if_pos hfl]; intro p hp; exact Or.inl hp
      · rw [if_neg hfl]
        by_cases hve : versionsEqual a.version
            (findLatestVersion tags a.version opts.ignoreMinor) = true
        · rw [if_pos hve]; intro p hp; exact Or.inl hp
        · rw [if_neg hve]; intro p hp; exact Or.inl hp

/-- The remote of the C4 and C8 witnesses. -/
def witnessRemote : Remote :=
  ⟨fun _ => .httpResp 200 (some []),
   fun _ => .httpResp 200 (some ⟨"main"⟩),
   fun _ _ => .httpResp 200 (some ⟨"abc1234"⟩),
   fun _ _ _ => .httpResp 200 (some ⟨5, 0, "ahead"⟩)⟩

/-- C4 witness: a short pin that is a prefix of the branch head reports
zero commits behind and no compare request was issued. -/
theorem c4_sha_commit_distance_witness :
    checkSHAStatus witnessRemote "o/r" "abc1" =
      (.ok ⟨"abc1234", 0⟩, [.repoInfo "o/r", .branchHead "o/r" "main"]) :=
  (c4_sha_commit_distance witnessRemote "o/r" "abc1" "main" "abc1234" rfl rfl).1 (by decide)

/-- C6 counterexample input: one hash-pinned reference whose repository
lookup answers 500 (a generic failure, not 404/403). -/
def c6Remote : Remote :=
  ⟨fun _ => .httpResp 200 (some []),
   fun _ => .httpResp 500 none,
   fun _ _ => .httpResp 200 (some ⟨"deadbee"⟩),
   fun _ _ _ => .httpResp 200 (some ⟨0, 0, "identical"⟩)⟩

/-- C6 counterexample: a generic remote failure met while resolving a
hash-pinned reference does not abort the run — `CheckActionVersions`
returns no error and downgrades the failure to a per-reference warning. -/
theorem c6_counterexample :
    (CheckActionVersions c6Remote [⟨"o/r", "abcdef9", "f.yml"⟩] ⟨false, false⟩).2.2.1
        = none ∧
      (CheckActionVersions c6Remote [⟨"o/r", "abcdef9", "f.yml"⟩] ⟨false, false⟩).2.1.warnings
        = ["skipping o/r: GitHub API returned status 500"] := by decide

/-- C6 (amended): a run-aborting error arises only from a tag-style
reference (never a hash-pinned one), and it names that reference and wraps
a generic cause; a generic failure while resolving a hash-pinned reference
instead leaves the run error-free and appends a per-reference warning. -/
theorem c6_generic_failure_handling (remote : Remote) (opts : CheckOptions)
    (s : RunState) (a : ActionReference) :
    (∀ e, (checkStep remote opts s a).2.2 = some e →
      isSHA a.version = false ∧ e.actionName = a.name ∧
        ∃ msg, e.cause = .generic msg) ∧
    (∀ msg calls, isSHA a.version = true → opts.ignoreSHA = false →
      s.skipped.contains (repoFromAction a.name) = false →
      checkSHAStatus remote (repoFromAction a.name) a.version =
        (.error (.generic msg), calls) →
      (checkStep remote opts s a).2.2 = none ∧
      (checkStep remote opts s a).1.warnings =
        s.warnings ++ [warnGeneric a.name msg]) := by
  constructor
  · refine checkStep_elim remote opts s a
      (fun r => ∀ e, r.2.2 = some e →
        isSHA a.version = false ∧ e.actionName = a.name ∧
          ∃ msg, e.cause = .generic msg) ?_ ?_ ?_ ?_ ?_ ?_ ?_ ?_
    · intro _ e he; exact Option.noConfusion he
    · intro _ _ _ e he; exact Option.noConfusion he
    · intro rp st calls _ _ _ _ e he; exact Option.noConfusion he
    · intro msg calls _ _ _ _ e he; exact Option.noConfusion he
    · intro info calls _ _ _ _ e he
      by_cases hcb : 0 < info.commitsBehind
      · rw [if_pos hcb] at he; exact Option.noConfusion he
      · rw [if_neg hcb] at he; exact Option.noConfusion he
    · intro rp st cache2 calls _ _ _ e he; exact Option.noConfusion he
    · intro msg cache2 calls _ h2 _ e he
      cases he
      exact ⟨h2, rfl, msg, rfl⟩
    · intro tags cache2 calls _ _ _ e he
      by_cases hfl : findLatestVersion tags a.version opts.ignoreMinor = ""
      · rw [if_pos hfl] at he; exact Option.noConfusion he
      · rw [if_neg hfl] at he
        by_cases hve : versionsEqual a.version
            (findLatestVersion tags a.version opts.ignoreMinor) = true
        · rw [if_pos hve] at he; exact Option.noConfusion he
        · rw [if_neg hve] at he; exact Option.noConfusion he
  · intro msg calls h2 h3 h1 hss
    rw [checkStep_shaG_eq h1 h2 h3 hss]
    exact ⟨rfl, rfl⟩

/-- C6 witness for the amended statement: the hash-pinned half applied to
the C6 counterexample input. -/
theorem c6_generic_failure_handling_witness :
    (checkStep c6Remote ⟨false, false⟩ initialState ⟨"o/r", "abcdef9", "f.yml"⟩).2.2
        = none ∧
      (checkStep c6Remote ⟨false, false⟩ initialState ⟨"o/r", "abcdef9", "f.yml"⟩).1.warnings
        = initialState.warnings ++
            [warnGeneric "o/r" "GitHub API returned status 500"] :=
  (c6_generic_failure_handling c6Remote ⟨false, false⟩ initialState
      ⟨"o/r", "abcdef9", "f.yml"⟩).2
    "GitHub API returned status 500" [.repoInfo "o/r"] (by decide) rfl (by decide) rfl

/-- C8 counterexample: a 404 on the branch-head route is reported as the
generic status error, not as the distinguishable `ErrRepoNotAccessible`. -/
def c8Remote : Remote :=
  ⟨fun _ => .httpResp 200 (some []),
   fun _ => .httpResp 200 (some ⟨"main"⟩),
   fun _ _ => .httpResp 404 none,
   fun _ _ _ => .httpResp 404 none⟩

theorem c8_counterexample :
    getBranchHead c8Remote "o/r" "main" =
        .error (.generic "GitHub API returned status 404") ∧
      RErr.generic "GitHub API returned status 404" ≠ RErr.notAccessible "o/r" 404 :=
  ⟨rfl, by decide⟩

/-- C8 (amended): of the four remote operations, the tag-list and
repository lookups report the distinguishable `ErrRepoNotAccessible{repo,
status}` on a 404/403 response, while the branch-head and compare lookups
report only the generic status error for those same statuses. -/
theorem c8_notfound_distinction (remote : Remote) (repo branch base hd : String)
    (st : Nat) (bt : Option (List GitHubTag)) (br : Option GitHubRepo)
    (bh : Option GitHubRef) (bc : Option GitHubCompare)
    (hst : st = 404 ∨ st = 403) :
    (remote.tagsResp repo = .httpResp st bt →
      fetchTags remote repo = .error (.notAccessible repo st)) ∧
    (remote.repoResp repo = .httpResp st br →
      getDefaultBranch remote repo = .error (.notAccessible repo st)) ∧
    (remote.refResp repo branch = .httpResp st bh →
      getBranchHead remote repo branch = .error (.generic (statusMsg st))) ∧
    (remote.compareResp repo base hd = .httpResp st bc →
      compareCommits remote repo base hd = .error (.generic (statusMsg st))) := by
  have hne : st ≠ 200 := by omega
  refine ⟨?_, ?_, ?_, ?_⟩
  · intro h
    unfold fetchTags
    rw [h]
    dsimp only
    rw [if_pos hst]
  · intro h
    unfold getDefaultBranch
    rw [h]
    dsimp only
    rw [if_pos hst]
  · intro h
    unfold getBranchHead
    rw [h]
    dsimp only
    rw [if_pos hne]
  · intro h
    unfold compareCommits
    rw [h]
    dsimp only
    rw [if_pos hne]

/-- C8 witness: the amended distinction at a concrete 404 remote. -/
theorem c8_notfound_distinction_witness :
    getBranchHead c8Remote "o/r" "main" =
      .error (.generic (statusMsg 404)) :=
  (c8_notfound_distinction c8Remote "o/r" "main" "b" "h" 404 none none none none
      (Or.inl rfl)).2.2.1 rfl

/-! ### Loop-level facts -/

theorem checkLoop_cons (remote : Remote) (opts : CheckOptions) (s : RunState)
    (a : ActionReference) (rest : List ActionReference) :
    checkLoop remote opts s (a :: rest) =
      (match checkStep remote opts s a with
      | (s2, calls, some e) => (s2, calls, some e)
      | (s2, calls, none) =>
        ((checkLoop remote opts s2 rest).1,
          calls ++ (checkLoop remote opts s2 rest).2.1,
          (checkLoop remote opts s2 rest).2.2)) := by
  rw [checkLoop]

theorem cav_components (remote : Remote) (actions : List ActionReference)
    (opts : CheckOptions) :
    (CheckActionVersions remote actions opts).2.1 =
      ⟨(checkLoop remote opts initialState actions).1.outdated,
       (checkLoop remote opts initialState actions).1.shaPinned,
       (checkLoop remote opts initialState actions).1.warnings⟩ ∧
    (CheckActionVersions remote actions opts).2.2.1 =
      (checkLoop remote opts initialState actions).2.2 ∧
    (CheckActionVersions remote actions opts).2.2.2 =
      (checkLoop remote opts initialState actions).2.1 := by
  rcases hr : checkLoop remote opts initialState actions with ⟨s1, calls, err⟩
  cases err <;> simp [CheckActionVersions, hr]

theorem step_outdated_sub (remote : Remote) (opts : CheckOptions) (s : RunState)
    (a : ActionReference) :
    (checkStep remote opts s a).1.outdated = s.outdated ∨
    ∃ tags, findLatestVersion tags a.version opts.ignoreMinor ≠ "" ∧
      (checkStep remote opts s a).1.outdated = s.outdated ++
        [⟨a.file, a.name, a.version, findLatestVersion tags a.version opts.ignoreMinor⟩] := by
  refine checkStep_elim remote opts s a
    (fun r => r.1.outdated = s.outdated ∨
      ∃ tags, findLatestVersion tags a.version opts.ignoreMinor ≠ "" ∧
        r.1.outdated = s.outdated ++
          [⟨a.file, a.name, a.version,
            findLatestVersion tags a.version opts.ignoreMinor⟩]) ?_ ?_ ?_ ?_ ?_ ?_ ?_ ?_
  · intro _; exact Or.inl rfl
  · intro _ _ _; exact Or.inl rfl
  · intro rp st calls _ _ _ _; exact Or.inl rfl
  · intro msg calls _ _ _ _; exact Or.inl rfl
  · intro info calls _ _ _ _
    by_cases hcb : 0 < info.commitsBehind
    · rw [if_pos hcb]; exact Or.inl rfl
    · rw [if_neg hcb]; exact Or.inl rfl
  · intro rp st cache2 calls _ _ _; exact Or.inl rfl
  · intro msg cache2 calls _ _ _; exact Or.inl rfl
  · intro tags cache2 calls _ _ _
    by_cases hfl : findLatestVersion tags a.version opts.ignoreMinor = ""
    · rw [if_pos hfl]; exact Or.inl rfl
    · rw [if_neg hfl]
      by_cases hve : versionsEqual a.version
          (findLatestVersion tags a.version opts.ignoreMinor) = true
      · rw [if_pos hve]; exact Or.inl rfl
      · rw [if_neg hve]; exact Or.inr ⟨tags, hfl, rfl⟩

theorem step_shaPinned_sub (remote : Remote) (opts : CheckOptions) (s : RunState)
    (a : ActionReference) :
    (checkStep remote opts s a).1.shaPinned = s.shaPinned ∨
    ∃ info : ShaStatus, (checkStep remote opts s a).1.shaPinned = s.shaPinned ++
      [⟨a.file, a.name, a.version, info.latestSHA, info.commitsBehind⟩] := by
  refine checkStep_elim remote opts s a
    (fun r => r.1.shaPinned = s.shaPinned ∨
      ∃ info : ShaStatus, r.1.shaPinned = s.shaPinned ++
        [⟨a.file, a.name, a.version, info.latestSHA, info.commitsBehind⟩]) ?_ ?_ ?_ ?_ ?_ ?_ ?_ ?_
  · intro _; exact Or.inl rfl
  · intro _ _ _; exact Or.inl rfl
  · intro rp st calls _ _ _ _; exact Or.inl rfl
  · intro msg calls _ _ _ _; exact Or.inl rfl
  · intro info calls _ _ _ _
    by_cases hcb : 0 < info.commitsBehind
    · rw [if_pos hcb]; exact Or.inr ⟨info, rfl⟩
    · rw [if_neg hcb]; exact Or.inl rfl
  · intro rp st cache2 calls _ _ _; exact Or.inl rfl
  · intro msg cache2 calls _ _ _; exact Or.inl rfl
  · intro tags cache2 calls _ _ _
    by_cases hfl : findLatestVersion tags a.version opts.ignoreMinor = ""
    · rw [if_pos hfl]; exact Or.inl rfl
    · rw [if_neg hfl]
      by_cases hve : versionsEqual a.version
          (findLatestVersion tags a.version opts.ignoreMinor) = true
      · rw [if_pos hve]; exact Or.inl rfl
      · rw [if_neg hve]; exact Or.inl rfl

theorem step_skipped_sub (remote : Remote) (opts : CheckOptions) (s : RunState)
    (a : ActionReference) :
    (checkStep remote opts s a).1.skipped = s.skipped ∨
    (checkStep remote opts s a).1.skipped = s.skipped ++ [repoFromAction a.name] := by
  refine checkStep_elim remote opts s a
    (fun r => r.1.skipped = s.skipped ∨
      r.1.skipped = s.skipped ++ [repoFromAction a.name]) ?_ ?_ ?_ ?_ ?_ ?_ ?_ ?_
  · intro _; exact Or.inl rfl
  · intro _ _ _; exact Or.inl rfl
  · intro rp st calls _ _ _ _; exact Or.inr rfl
  · intro msg calls _ _ _ _; exact Or.inl rfl
  · intro info calls _ _ _ _
    by_cases hcb : 0 < info.commitsBehind
    · rw [if_pos hcb]; exact Or.inl rfl
    · rw [if_neg hcb]; exact Or.inl rfl
  · intro rp st cache2 calls _ _ _; exact Or.inr rfl
  · intro msg cache2 calls _ _ _; exact Or.inl rfl
  · intro tags cache2 calls _ _ _
    by_cases hfl : findLatestVersion tags a.version opts.ignoreMinor = ""
    · rw [if_pos hfl]; exact Or.inl rfl
    · rw [if_neg hfl]
      by_cases hve : versionsEqual a.version
          (findLatestVersion tags a.version opts.ignoreMinor) = true
      · rw [if_pos hve]; exact Or.inl rfl
      · rw [if_neg hve]; exact Or.inl rfl

theorem getTags_cache_sub (remote : Remote) (cache : List (String × List GitHubTag))
    (repo : String) :
    (getTags remote cache repo).2.1 = cache ∨
    ∃ ts, (getTags remote cache repo).2.1 = (repo, ts) :: cache := by
  unfold getTags
  cases h : cache.lookup repo with
  | some tags => simp
  | none =>
    dsimp only
    cases hf : fetchTags remote repo with
    | error e => simp
    | ok tags => exact Or.inr ⟨tags, rfl⟩

theorem step_cache_sub (remote : Remote) (opts : CheckOptions) (s : RunState)
    (a : ActionReference) :
    (checkStep remote opts s a).1.cache = s.cache ∨
    ∃ ts, (checkStep remote opts s a).1.cache =
      (repoFromAction a.name, ts) :: s.cache := by
  refine checkStep_elim remote opts s a
    (fun r => r.1.cache = s.cache ∨
      ∃ ts, r.1.cache = (repoFromAction a.name, ts) :: s.cache) ?_ ?_ ?_ ?_ ?_ ?_ ?_ ?_
  · intro _; exact Or.inl rfl
  · intro _ _ _; exact Or.inl rfl
  · intro rp st calls _ _ _ _; exact Or.inl rfl
  · intro msg calls _ _ _ _; exact Or.inl rfl
  · intro info calls _ _ _ _
    by_cases hcb : 0 < info.commitsBehind
    · rw [if_pos hcb]; exact Or.inl rfl
    · rw [if_neg hcb]; exact Or.inl rfl
  · intro rp st cache2 calls _ _ hgt
    have h := getTags_cache_sub remote s.cache (repoFromAction a.name)
    rw [hgt] at h
    simpa using h
  · intro msg cache2 calls _ _ hgt
    have h := getTags_cache_sub remote s.cache (repoFromAction a.name)
    rw [hgt] at h
    simpa using h
  · intro tags cache2 calls _ _ hgt
    have h := getTags_cache_sub remote s.cache (repoFromAction a.name)
    rw [hgt] at h
    simp only at h
    by_cases hfl : findLatestVersion tags a.version opts.ignoreMinor = ""
    · rw [if_pos hfl]; simpa using h
    · rw [if_neg hfl]
      by_cases hve : versionsEqual a.version
          (findLatestVersion tags a.version opts.ignoreMinor) = true
      · rw [if_pos hve]; simpa using h
      · rw [if_neg hve]; simpa using h

/-- Soundness of an outdated finding: both versions parse and the latest is
strictly newer in magnitude. -/
def OutdatedSound (o : OutdatedAction) : Prop :=
  ∃ c l, parseSemver o.currentVersion = some c ∧
    parseSemver o.latestVersion = some l ∧ 0 < l.compare c

theorem loop_outdated_inv (remote : Remote) (opts : CheckOptions) :
    ∀ (actions : List ActionReference) (s : RunState),
      (∀ o ∈ s.outdated, OutdatedSound o) →
      ∀ o ∈ (checkLoop remote opts s actions).1.outdated, OutdatedSound o := by
  intro actions
  induction actions with
  | nil => intro s hs o ho; exact hs o ho
  | cons a rest ih =>
    intro s hs
    have hstep : ∀ o ∈ (checkStep remote opts s a).1.outdated, OutdatedSound o := by
      rcases step_outdated_sub remote opts s a with h | ⟨tags, hne, h⟩
      · rw [h]; exact hs
      · rw [h]
        intro o ho
        rcases List.mem_append.mp ho with ho | ho
        · exact hs o ho
        · simp only [List.mem_singleton] at ho
          subst ho
          obtain ⟨c, l, hc, hl, hlt⟩ := flv_result hne
          exact ⟨c, l, hc, hl, hlt⟩
    rw [checkLoop_cons]
    rcases hcs : checkStep remote opts s a with ⟨s2, calls, err⟩
    rw [hcs] at hstep
    cases err with
    | some e => exact hstep
    | none => exact ih s2 hstep

/-- C10: every `OutdatedAction` finding that `CheckActionVersions` emits has
a parseable `LatestVersion` that compares strictly greater in magnitude than
its `CurrentVersion` — an equal-magnitude latest tag (such as `v1.0.0`
against `v1`) is never reported. -/
theorem c10_outdated_strictly_newer (remote : Remote)
    (actions : List ActionReference) (opts : CheckOptions) (o : OutdatedAction)
    (ho : o ∈ (CheckActionVersions remote actions opts).2.1.outdated) :
    ∃ c l, parseSemver o.currentVersion = some c ∧
      parseSemver o.latestVersion = some l ∧ 0 < l.compare c := by
  rw [(cav_components remote actions opts).1] at ho
  exact loop_outdated_inv remote opts actions initialState (by intro o ho; cases ho) o ho

/-- The remote of the C10 witness: one repository publishing the single tag
`v2`. -/
def c10Remote : Remote :=
  ⟨fun _ => .httpResp 200 (some [⟨"v2"⟩]),
   fun _ => .httpResp 200 (some ⟨"main"⟩),
   fun _ _ => .httpResp 200 (some ⟨"abc1234"⟩),
   fun _ _ _ => .httpResp 200 (some ⟨5, 0, "ahead"⟩)⟩

/-- C10 witness: the finding emitted for `o/r@v1` against tag `v2`. -/
theorem c10_outdated_strictly_newer_witness :
    ∃ c l, parseSemver "v1" = some c ∧ parseSemver "v2" = some l ∧
      0 < l.compare c :=
  c10_outdated_strictly_newer c10Remote [⟨"o/r", "v1", "f.yml"⟩] ⟨false, false⟩
    ⟨"f.yml", "o/r", "v1", "v2"⟩ (by decide)

/-- Repository `R` needs no further tag fetch: it is cached or skipped. -/
def settledR (R : String) (s : RunState) : Prop :=
  (s.cache.lookup R).isSome ∨ R ∈ s.skipped

instance (R : String) (s : RunState) : Decidable (settledR R s) :=
  inferInstanceAs (Decidable (_ ∨ _))

theorem lookup_cons_isSome {β : Type} {R k : String} {ts : β}
    {cache : List (String × β)} (h : (cache.lookup R).isSome) :
    (((k, ts) :: cache).lookup R).isSome := by
  cases hbe : R == k <;> simp [List.lookup, hbe, h]

theorem lookup_cons_ne {β : Type} {R k : String} {ts : β}
    {cache : List (String × β)} (hne : k ≠ R) :
    ((k, ts) :: cache).lookup R = cache.lookup R := by
  have hbe : (R == k) = false := by simpa using fun he => hne he.symm
  simp [List.lookup, hbe]

theorem step_settled_mono (remote : Remote) (opts : CheckOptions) (s : RunState)
    (a : ActionReference) {R : String} (h : settledR R s) :
    settledR R (checkStep remote opts s a).1 := by
  rcases h with hc | hsk
  · left
    rcases step_cache_sub remote opts s a with he | ⟨ts, he⟩
    · rw [he]; exact hc
    · rw [he]; exact lookup_cons_isSome hc
  · right
    rcases step_skipped_sub remote opts s a with he | he
    · rw [he]; exact hsk
    · rw [he]; exact List.mem_append_left _ hsk

/-- Where a tag fetch can appear in one step's trace: either none at all,
or exactly one, in which case the repository was neither cached nor skipped
before the step and afterwards it is cached or skipped — or the run aborts. -/
theorem step_tags_spec (remote : Remote) (opts : CheckOptions) (s : RunState)
    (a : ActionReference) (R : String) :
    ((checkStep remote opts s a).2.1.countP (tagsCallOn R) = 0) ∨
    ((checkStep remote opts s a).2.1.countP (tagsCallOn R) = 1 ∧ ¬settledR R s ∧
      (settledR R (checkStep remote opts s a).1 ∨
        (checkStep remote opts s a).2.2 ≠ none)) := by
  by_cases h1 : s.skipped.contains (repoFromAction a.name) = true
  · rw [checkStep_skip_eq h1]; exact Or.inl rfl
  · replace h1 : s.skipped.contains (repoFromAction a.name) = false := by simpa using h1
    by_cases h2 : isSHA a.version = true
    · by_cases h3 : opts.ignoreSHA = true
      · rw [checkStep_shaIgnore_eq h1 h2 h3]; exact Or.inl rfl
      · replace h3 : opts.ignoreSHA = false := by simpa using h3
        have hnt := sha_calls_no_tags remote (repoFromAction a.name) a.version
        rcases hss : checkSHAStatus remote (repoFromAction a.name) a.version with ⟨res, calls⟩
        rw [hss] at hnt
        simp only at hnt
        have hz : calls.countP (tagsCallOn R) = 0 :=
          List.countP_eq_zero.mpr (by intro cl hcl; rw [hnt cl hcl R]; simp)
        cases res with
        | error e =>
          cases e with
          | notAccessible rp st =>
            rw [checkStep_shaNA_eq h1 h2 h3 hss]; exact Or.inl hz
          | generic msg =>
            rw [checkStep_shaG_eq h1 h2 h3 hss]; exact Or.inl hz
        | ok info =>
          rw [checkStep_shaOk_eq h1 h2 h3 hss]; exact Or.inl hz
    · replace h2 : isSHA a.version = false := by simpa using h2
      cases hl : s.cache.lookup (repoFromAction a.name) with
      | some tags =>
        rw [checkStep_tagsOk_eq h1 h2 (getTags_hit hl)]
        exact Or.inl rfl
      | none =>
        by_cases hR : repoFromAction a.name = R
        · subst hR
          have hns : ¬settledR (repoFromAction a.name) s := by
            intro hset
            rcases hset with hc | hsk
            · rw [hl] at hc; cases hc
            · have : s.skipped.contains (repoFromAction a.name) = true := by simpa
              rw [h1] at this; cases this
          have hone : ([RemoteCall.tags (repoFromAction a.name)]).countP
              (tagsCallOn (repoFromAction a.name)) = 1 := by
            simp [tagsCallOn]
          cases hf : fetchTags remote (repoFromAction a.name) with
          | error e =>
            cases e with
            | notAccessible rp st =>
              rw [checkStep_tagsNA_eq h1 h2 (getTags_miss_err hl hf)]
              refine Or.inr ⟨hone, hns, Or.inl (Or.inr ?_)⟩
              exact List.mem_append_right _ (List.mem_singleton.mpr rfl)
            | generic msg =>
              rw [checkStep_tagsG_eq h1 h2 (getTags_miss_err hl hf)]
              exact Or.inr ⟨hone, hns, Or.inr (by simp)⟩
          | ok tags =>
            rw [checkStep_tagsOk_eq h1 h2 (getTags_miss_ok hl hf)]
            refine Or.inr ⟨hone, hns, Or.inl (Or.inl ?_)⟩
            have hsome : ((((repoFromAction a.name), tags) :: s.cache).lookup
                (repoFromAction a.name)).isSome := by
              simp [List.lookup]
            by_cases hfl : findLatestVersion tags a.version opts.ignoreMinor = ""
            · rw [if_pos hfl]; exact hsome
            · rw [if_neg hfl]
              by_cases hve : versionsEqual a.version
                  (findLatestVersion tags a.version opts.ignoreMinor) = true
              · rw [if_pos hve]; exact hsome
              · rw [if_neg hve]; exact hsome
        · have hz : ∀ calls, calls = [RemoteCall.tags (repoFromAction a.name)] →
              calls.countP (tagsCallOn R) = 0 := by
            intro calls hc
            subst hc
            have : tagsCallOn R (RemoteCall.tags (repoFromAction a.name)) = false := by
              simpa [tagsCallOn] using hR
            simp [this]
          cases hf : fetchTags remote (repoFromAction a.name) with
          | error e =>
            cases e with
            | notAccessible rp st =>
              rw [checkStep_tagsNA_eq h1 h2 (getTags_miss_err hl hf)]
              exact Or.inl (hz _ rfl)
            | generic msg =>
              rw [checkStep_tagsG_eq h1 h2 (getTags_miss_err hl hf)]
              exact Or.inl (hz _ rfl)
          | ok tags =>
            rw [checkStep_tagsOk_eq h1 h2 (getTags_miss_ok hl hf)]
            exact Or.inl (hz _ rfl)

theorem loop_tags_le (remote : Remote) (opts : CheckOptions) (R : String) :
    ∀ (actions : List ActionReference) (s : RunState),
      ((checkLoop remote opts s actions).2.1.countP (tagsCallOn R) ≤ 1) ∧
      (settledR R s → (checkLoop remote opts s actions).2.1.countP (tagsCallOn R) = 0) := by
  intro actions
  induction actions with
  | nil => intro s; exact ⟨by simp [checkLoop], by intro _; simp [checkLoop]⟩
  | cons a rest ih =>
    intro s
    have hspec := step_tags_spec remote opts s a R
    have hmono := fun (h : settledR R s) => step_settled_mono remote opts s a h
    rw [checkLoop_cons]
    rcases hcs : checkStep remote opts s a with ⟨s2, calls, err⟩
    rw [hcs] at hspec hmono
    simp only at hspec hmono
    cases err with
    | some e =>
      constructor
      · rcases hspec with h | ⟨h, -, -⟩
        · rw [h]; omega
        · rw [h]
      · intro hset
        rcases hspec with h | ⟨-, hns, -⟩
        · exact h
        · exact absurd hset hns
    | none =>
      simp only [List.countP_append]
      constructor
      · rcases hspec with h | ⟨h, -, hafter⟩
        · rw [h]
          simpa using (ih s2).1
        · rw [h]
          rcases hafter with hset2 | habort
          · have := (ih s2).2 hset2
            omega
          · exact absurd rfl habort
      · intro hset
        rcases hspec with h | ⟨-, hns, -⟩
        · rw [h, (ih s2).2 (hmono hset)]
        · exact absurd hset hns

theorem loop_calls_repo (remote : Remote) (opts : CheckOptions) :
    ∀ (actions : List ActionReference) (s : RunState),
      ∀ cl ∈ (checkLoop remote opts s actions).2.1,
        ∃ a ∈ actions, callRepo cl = repoFromAction a.name := by
  intro actions
  induction actions with
  | nil => intro s cl hcl; simp [checkLoop] at hcl
  | cons a rest ih =>
    intro s
    have hstep := step_calls_repo remote opts s a
    rw [checkLoop_cons]
    rcases hcs : checkStep remote opts s a with ⟨s2, calls, err⟩
    rw [hcs] at hstep
    simp only at hstep
    cases err with
    | some e =>
      intro cl hcl
      exact ⟨a, List.mem_cons_self a rest, hstep cl hcl⟩
    | none =>
      intro cl hcl
      rcases List.mem_append.mp hcl with hcl | hcl
      · exact ⟨a, List.mem_cons_self a rest, hstep cl hcl⟩
      · obtain ⟨a2, ha2, hrepo⟩ := ih s2 cl hcl
        exact ⟨a2, List.mem_cons_of_mem a ha2, hrepo⟩

theorem loop_cache_keys (remote : Remote) (opts : CheckOptions) :
    ∀ (actions : List ActionReference) (s : RunState),
      ∀ kv ∈ (checkLoop remote opts s actions).1.cache,
        kv ∈ s.cache ∨ ∃ a ∈ actions, kv.1 = repoFromAction a.name := by
  intro actions
  induction actions with
  | nil => intro s kv hkv; exact Or.inl hkv
  | cons a rest ih =>
    intro s
    have hsub := step_cache_sub remote opts s a
    rw [checkLoop_cons]
    rcases hcs : checkStep remote opts s a with ⟨s2, calls, err⟩
    rw [hcs] at hsub
    simp only at hsub
    have hstep : ∀ kv ∈ s2.cache,
        kv ∈ s.cache ∨ ∃ a2 ∈ a :: rest, kv.1 = repoFromAction a2.name := by
      intro kv hkv
      rcases hsub with he | ⟨ts, he⟩
      · rw [he] at hkv; exact Or.inl hkv
      · rw [he] at hkv
        rcases List.mem_cons.mp hkv with rfl | hkv
        · exact Or.inr ⟨a, List.mem_cons_self a rest, rfl⟩
        · exact Or.inl hkv
    cases err with
    | some e => exact hstep
    | none =>
      intro kv hkv
      rcases ih s2 kv hkv with hkv2 | ⟨a2, ha2, hrepo⟩
      · rcases hstep kv hkv2 with h | h
        · exact Or.inl h
        · exact Or.inr h
      · exact Or.inr ⟨a2, List.mem_cons_of_mem a ha2, hrepo⟩

/-- The remote of the C7 witness: one repository publishing the tag `v2`. -/
def c7Remote : Remote :=
  ⟨fun _ => .httpResp 200 (some [⟨"v2"⟩]),
   fun _ => .httpResp 200 (some ⟨"main"⟩),
   fun _ _ => .httpResp 200 (some ⟨"abc1234"⟩),
   fun _ _ _ => .httpResp 200 (some ⟨5, 0, "ahead"⟩)⟩

/-- C7: cache keys and remote lookups use the repository identity — the
first two path segments of the action name.  (i) At most one tag fetch is
performed per repository per run; (ii) every remote request addresses
`repoFromAction` of some input reference; (iii) every tag-cache key is
`repoFromAction` of some input reference; and (iv) concretely, the
references `owner/repo/sub1` and `owner/repo/sub2` trigger exactly one tag
fetch, for `owner/repo`, and share the single cache entry keyed
`owner/repo` — never the full action name. -/
theorem c7_repo_identity_caching (remote : Remote) (actions : List ActionReference)
    (opts : CheckOptions) (R : String) :
    ((CheckActionVersions remote actions opts).2.2.2.countP (tagsCallOn R) ≤ 1) ∧
    (∀ cl ∈ (CheckActionVersions remote actions opts).2.2.2,
      ∃ a ∈ actions, callRepo cl = repoFromAction a.name) ∧
    (∀ kv ∈ (checkLoop remote opts initialState actions).1.cache,
      ∃ a ∈ actions, kv.1 = repoFromAction a.name) ∧
    ((CheckActionVersions c7Remote
        [⟨"owner/repo/sub1", "v1", "f.yml"⟩, ⟨"owner/repo/sub2", "v1", "g.yml"⟩]
        ⟨false, false⟩).2.2.2 = [.tags "owner/repo"] ∧
      (checkLoop c7Remote ⟨false, false⟩ initialState
        [⟨"owner/repo/sub1", "v1", "f.yml"⟩, ⟨"owner/repo/sub2", "v1", "g.yml"⟩]).1.cache =
        [("owner/repo", [⟨"v2"⟩])]) := by
  have hc := (cav_components remote actions opts).2.2
  refine ⟨?_, ?_, ?_, by decide, by decide⟩
  · rw [hc]
    exact (loop_tags_le remote opts R actions initialState).1
  · rw [hc]
    exact loop_calls_repo remote opts actions initialState
  · intro kv hkv
    rcases loop_cache_keys remote opts actions initialState kv hkv with h | h
    · cases h
    · exact h

/-- C7 witness: the single-fetch bound at the concrete two-subpath input. -/
theorem c7_repo_identity_caching_witness :
    (CheckActionVersions c7Remote
        [⟨"owner/repo/sub1", "v1", "f.yml"⟩, ⟨"owner/repo/sub2", "v1", "g.yml"⟩]
        ⟨false, false⟩).2.2.2.countP (tagsCallOn "owner/repo") ≤ 1 :=
  (c7_repo_identity_caching c7Remote
      [⟨"owner/repo/sub1", "v1", "f.yml"⟩, ⟨"owner/repo/sub2", "v1", "g.yml"⟩]
      ⟨false, false⟩ "owner/repo").1

/-- On a repository the remote serves normally, a step never errors and
adds no warning and no skip mark. -/
theorem step_ok_effects (remote : Remote) (opts : CheckOptions) (s : RunState)
    (a : ActionReference) (hok : remoteOkFor remote (repoFromAction a.name)) :
    (checkStep remote opts s a).2.2 = none ∧
    (checkStep remote opts s a).1.warnings = s.warnings ∧
    (checkStep remote opts s a).1.skipped = s.skipped := by
  by_cases h1 : s.skipped.contains (repoFromAction a.name) = true
  · rw [checkStep_skip_eq h1]; exact ⟨rfl, rfl, rfl⟩
  · replace h1 : s.skipped.contains (repoFromAction a.name) = false := by simpa using h1
    by_cases h2 : isSHA a.version = true
    · by_cases h3 : opts.ignoreSHA = true
      · rw [checkStep_shaIgnore_eq h1 h2 h3]; exact ⟨rfl, rfl, rfl⟩
      · replace h3 : opts.ignoreSHA = false := by simpa using h3
        obtain ⟨info, calls, hss⟩ := checkSHAStatus_ok_of_remoteOk a.version hok
        rw [checkStep_shaOk_eq h1 h2 h3 hss]
        by_cases hcb : 0 < info.commitsBehind
        · rw [if_pos hcb]; exact ⟨rfl, rfl, rfl⟩
        · rw [if_neg hcb]; exact ⟨rfl, rfl, rfl⟩
    · replace h2 : isSHA a.version = false := by simpa using h2
      have htail : ∀ tags cache2 calls,
          getTags remote s.cache (repoFromAction a.name) = (.ok tags, cache2, calls) →
          (checkStep remote opts s a).2.2 = none ∧
          (checkStep remote opts s a).1.warnings = s.warnings ∧
          (checkStep remote opts s a).1.skipped = s.skipped := by
        intro tags cache2 calls hgt
        rw [checkStep_tagsOk_eq h1 h2 hgt]
        by_cases hfl : findLatestVersion tags a.version opts.ignoreMinor = ""
        · rw [if_pos hfl]; exact ⟨rfl, rfl, rfl⟩
        · rw [if_neg hfl]
          by_cases hve : versionsEqual a.version
              (findLatestVersion tags a.version opts.ignoreMinor) = true
          · rw [if_pos hve]; exact ⟨rfl, rfl, rfl⟩
          · rw [if_neg hve]; exact ⟨rfl, rfl, rfl⟩
      cases hl : s.cache.lookup (repoFromAction a.name) with
      | some tags => exact htail tags s.cache [] (getTags_hit hl)
      | none =>
        obtain ⟨ts, hf⟩ := fetchTags_ok_of_remoteOk hok
        exact htail ts _ _ (getTags_miss_ok hl hf)

/-- On an inaccessible repository that is neither cached nor skipped, a
step processing one of its references warns once, marks it skipped, adds no
finding, does not abort, and issues exactly one request for it. -/
theorem step_inacc_effects (remote : Remote) (opts : CheckOptions) (s : RunState)
    (a : ActionReference) (R : String)
    (hrepo : repoFromAction a.name = R)
    (hin : repoInaccessibleFor remote R)
    (h1 : s.skipped.contains R = false)
    (hl : s.cache.lookup R = none)
    (hact : ¬(isSHA a.version = true ∧ opts.ignoreSHA = true)) :
    (checkStep remote opts s a).2.2 = none ∧
    (checkStep remote opts s a).1.warnings = s.warnings ++ [warnInaccessible a.name] ∧
    (checkStep remote opts s a).1.skipped = s.skipped ++ [R] ∧
    (checkStep remote opts s a).1.outdated = s.outdated ∧
    (checkStep remote opts s a).1.shaPinned = s.shaPinned ∧
    (checkStep remote opts s a).2.1.countP (callOnRepo R) = 1 := by
  subst hrepo
  by_cases h2 : isSHA a.version = true
  · have h3 : opts.ignoreSHA = false := by
      cases hig : opts.ignoreSHA
      · rfl
      · exact absurd ⟨h2, hig⟩ hact
    obtain ⟨st, hst, hss⟩ := checkSHAStatus_inacc a.version hin
    rw [checkStep_shaNA_eq h1 h2 h3 hss]
    refine ⟨rfl, rfl, rfl, rfl, rfl, ?_⟩
    simp [callOnRepo, callRepo]
  · replace h2 : isSHA a.version = false := by simpa using h2
    obtain ⟨st, hst, hf⟩ := fetchTags_inacc hin
    rw [checkStep_tagsNA_eq h1 h2 (getTags_miss_err hl hf)]
    refine ⟨rfl, rfl, rfl, rfl, rfl, ?_⟩
    simp [callOnRepo, callRepo]

/-- Once the repository `R` is marked skipped and every other repository in
play resolves normally, the rest of the run cannot fail, adds no warning,
issues no request for `R`, and emits findings only for other repositories. -/
theorem loop_after (remote : Remote) (opts : CheckOptions) (R : String) :
    ∀ (actions : List ActionReference) (s : RunState),
      R ∈ s.skipped →
      (∀ a ∈ actions, repoFromAction a.name ≠ R →
        remoteOkFor remote (repoFromAction a.name)) →
      (checkLoop remote opts s actions).2.2 = none ∧
      (checkLoop remote opts s actions).1.warnings = s.warnings ∧
      (checkLoop remote opts s actions).2.1.countP (callOnRepo R) = 0 ∧
      (∀ o ∈ (checkLoop remote opts s actions).1.outdated,
        o ∈ s.outdated ∨ repoFromAction o.name ≠ R) ∧
      (∀ p ∈ (checkLoop remote opts s actions).1.shaPinned,
        p ∈ s.shaPinned ∨ repoFromAction p.name ≠ R) := by
  intro actions
  induction actions with
  | nil =>
    intro s _ _
    exact ⟨rfl, rfl, rfl, fun o ho => Or.inl ho, fun p hp => Or.inl hp⟩
  | cons a rest ih =>
    intro s hmem hok
    have hoktail : ∀ a2 ∈ rest, repoFromAction a2.name ≠ R →
        remoteOkFor remote (repoFromAction a2.name) :=
      fun a2 ha2 => hok a2 (List.mem_cons_of_mem a ha2)
    by_cases hr : repoFromAction a.name = R
    · have h1 : s.skipped.contains (repoFromAction a.name) = true := by
        rw [hr]; simpa using hmem
      rw [checkLoop_cons, checkStep_skip_eq h1]
      dsimp only
      obtain ⟨e1, e2, e3, e4, e5⟩ := ih s hmem hoktail
      exact ⟨e1, e2, by simpa [List.countP_append] using e3, e4, e5⟩
    · have hoka := hok a (List.mem_cons_self a rest) hr
      have hosub := step_outdated_sub remote opts s a
      have hpsub := step_shaPinned_sub remote opts s a
      have hcalls := step_calls_repo remote opts s a
      have heff := step_ok_effects remote opts s a hoka
      rw [checkLoop_cons]
      rcases hcs : checkStep remote opts s a with ⟨s2, calls, err⟩
      rw [hcs] at hosub hpsub hcalls heff
      simp only at hosub hpsub hcalls heff
      obtain ⟨herr, hw, hsk⟩ := heff
      cases err with
      | some e => cases herr
      | none =>
        dsimp only
        have hmem2 : R ∈ s2.skipped := by rw [hsk]; exact hmem
        obtain ⟨e1, e2, e3, e4, e5⟩ := ih s2 hmem2 hoktail
        have hzero : calls.countP (callOnRepo R) = 0 := by
          refine List.countP_eq_zero.mpr ?_
          intro cl hcl
          rw [callOnRepo_false_of_ne (by rw [hcalls cl hcl]; exact hr)]
          simp
        refine ⟨e1, by rw [e2, hw], ?_, ?_, ?_⟩
        · rw [List.countP_append, hzero, e3]
        · intro o ho
          rcases e4 o ho with ho2 | hne
          · rcases hosub with he | ⟨tags, -, he⟩
            · rw [he] at ho2; exact Or.inl ho2
            · rw [he] at ho2
              rcases List.mem_append.mp ho2 with ho3 | ho3
              · exact Or.inl ho3
              · simp only [List.mem_singleton] at ho3
                subst ho3
                exact Or.inr hr
          · exact Or.inr hne
        · intro p hp
          rcases e5 p hp with hp2 | hne
          · rcases hpsub with he | ⟨info, he⟩
            · rw [he] at hp2; exact Or.inl hp2
            · rw [he] at hp2
              rcases List.mem_append.mp hp2 with hp3 | hp3
              · exact Or.inl hp3
              · simp only [List.mem_singleton] at hp3
                subst hp3
                exact Or.inr hr
          · exact Or.inr hne

/-- Whether a reference belongs to repository `R` and is actually checked
(not suppressed by `IgnoreSHA`). -/
def activeFor (R : String) (opts : CheckOptions) (a : ActionReference) : Prop :=
  repoFromAction a.name = R ∧ ¬(isSHA a.version = true ∧ opts.ignoreSHA = true)

instance (R : String) (opts : CheckOptions) (a : ActionReference) :
    Decidable (activeFor R opts a) :=
  inferInstanceAs (Decidable (_ ∧ _))

/-- The run seen from a state where the inaccessible repository `R` is not
yet known: it never aborts or emits a finding for `R`, and it warns for `R`
exactly once — when some reference for `R` is actually checked — issuing
exactly one request for `R` in that case and none otherwise. -/
theorem loop_before (remote : Remote) (opts : CheckOptions) (R : String)
    (hin : repoInaccessibleFor remote R) :
    ∀ (actions : List ActionReference) (s : RunState),
      s.skipped.contains R = false →
      s.cache.lookup R = none →
      (∀ a ∈ actions, repoFromAction a.name ≠ R →
        remoteOkFor remote (repoFromAction a.name)) →
      (checkLoop remote opts s actions).2.2 = none ∧
      (∀ o ∈ (checkLoop remote opts s actions).1.outdated,
        o ∈ s.outdated ∨ repoFromAction o.name ≠ R) ∧
      (∀ p ∈ (checkLoop remote opts s actions).1.shaPinned,
        p ∈ s.shaPinned ∨ repoFromAction p.name ≠ R) ∧
      ((∃ a ∈ actions, activeFor R opts a) →
        (∃ nm, (checkLoop remote opts s actions).1.warnings =
          s.warnings ++ [warnInaccessible nm]) ∧
        (checkLoop remote opts s actions).2.1.countP (callOnRepo R) = 1) ∧
      ((¬∃ a ∈ actions, activeFor R opts a) →
        (checkLoop remote opts s actions).1.warnings = s.warnings ∧
        (checkLoop remote opts s actions).2.1.countP (callOnRepo R) = 0) := by
  intro actions
  induction actions with
  | nil =>
    intro s _ _ _
    refine ⟨rfl, fun o ho => Or.inl ho, fun p hp => Or.inl hp, ?_, ?_⟩
    · rintro ⟨a, ha, -⟩; cases ha
    · intro _; exact ⟨rfl, rfl⟩
  | cons a rest ih =>
    intro s hsk hl hok
    have hoktail : ∀ a2 ∈ rest, repoFromAction a2.name ≠ R →
        remoteOkFor remote (repoFromAction a2.name) :=
      fun a2 ha2 => hok a2 (List.mem_cons_of_mem a ha2)
    by_cases hr : repoFromAction a.name = R
    · by_cases hact2 : isSHA a.version = true ∧ opts.ignoreSHA = true
      · -- an R-reference suppressed by IgnoreSHA: the step is a no-op
        have h1 : s.skipped.contains (repoFromAction a.name) = false := by
          rw [hr]; exact hsk
        rw [checkLoop_cons, checkStep_shaIgnore_eq h1 hact2.1 hact2.2]
        dsimp only
        obtain ⟨e1, e2, e3, e4, e5⟩ := ih s hsk hl hoktail
        refine ⟨e1, e2, e3, ?_, ?_⟩
        · rintro ⟨a0, ha0, hcond⟩
          rcases List.mem_cons.mp ha0 with rfl | ha0
          · exact absurd hact2 hcond.2
          · obtain ⟨hw, hcnt⟩ := e4 ⟨a0, ha0, hcond⟩
            exact ⟨hw, by simpa [List.countP_append] using hcnt⟩
        · intro hno
          obtain ⟨hw, hcnt⟩ := e5 (fun ⟨a0, ha0, hcond⟩ =>
            hno ⟨a0, List.mem_cons_of_mem a ha0, hcond⟩)
          exact ⟨hw, by simpa [List.countP_append] using hcnt⟩
      · -- the first checked R-reference: warn once and mark R skipped
        have heff := step_inacc_effects remote opts s a R hr hin hsk hl hact2
        rw [checkLoop_cons]
        rcases hcs : checkStep remote opts s a with ⟨s2, calls, err⟩
        rw [hcs] at heff
        simp only at heff
        obtain ⟨herr, hw, hskip2, hout, hsha, hcnt⟩ := heff
        cases err with
        | some e => cases herr
        | none =>
          dsimp only
          have hmem2 : R ∈ s2.skipped := by
            rw [hskip2]
            exact List.mem_append_right _ (List.mem_singleton.mpr rfl)
          obtain ⟨e1, e2, e3, e4, e5⟩ := loop_after remote opts R rest s2 hmem2 hoktail
          refine ⟨e1, ?_, ?_, ?_, ?_⟩
          · intro o ho
            rcases e4 o ho with ho2 | hne
            · rw [hout] at ho2; exact Or.inl ho2
            · exact Or.inr hne
          · intro p hp
            rcases e5 p hp with hp2 | hne
            · rw [hsha] at hp2; exact Or.inl hp2
            · exact Or.inr hne
          · intro _
            refine ⟨⟨a.name, by rw [e2, hw]⟩, ?_⟩
            rw [List.countP_append, hcnt, e3]
          · intro hno
            exact absurd ⟨a, List.mem_cons_self a rest, hr, hact2⟩ hno
    · -- a reference for another repository: it resolves normally
      have hoka := hok a (List.mem_cons_self a rest) hr
      have hosub := step_outdated_sub remote opts s a
      have hpsub := step_shaPinned_sub remote opts s a
      have hcsub := step_cache_sub remote opts s a
      have hcalls := step_calls_repo remote opts s a
      have heff := step_ok_effects remote opts s a hoka
      rw [checkLoop_cons]
      rcases hcs : checkStep remote opts s a with ⟨s2, calls, err⟩
      rw [hcs] at hosub hpsub hcsub hcalls heff
      simp only at hosub hpsub hcsub hcalls heff
      obtain ⟨herr, hw, hskeq⟩ := heff
      cases err with
      | some e => cases herr
      | none =>
        dsimp only
        have hsk2 : s2.skipped.contains R = false := by rw [hskeq]; exact hsk
        have hl2 : s2.cache.lookup R = none := by
          rcases hcsub with he | ⟨ts, he⟩
          · rw [he]; exact hl
          · rw [he, lookup_cons_ne hr]; exact hl
        have hzero : calls.countP (callOnRepo R) = 0 := by
          refine List.countP_eq_zero.mpr ?_
          intro cl hcl
          rw [callOnRepo_false_of_ne (by rw [hcalls cl hcl]; exact hr)]
          simp
        obtain ⟨e1, e2, e3, e4, e5⟩ := ih s2 hsk2 hl2 hoktail
        refine ⟨e1, ?_, ?_, ?_, ?_⟩
        · intro o ho
          rcases e2 o ho with ho2 | hne
          · rcases hosub with he | ⟨tags, -, he⟩
            · rw [he] at ho2; exact Or.inl ho2
            · rw [he] at ho2
              rcases List.mem_append.mp ho2 with ho3 | ho3
              · exact Or.inl ho3
              · simp only [List.mem_singleton] at ho3
                subst ho3
                exact Or.inr hr
          · exact Or.inr hne
        · intro p hp
          rcases e3 p hp with hp2 | hne
          · rcases hpsub with he | ⟨info, he⟩
            · rw [he] at hp2; exact Or.inl hp2
            · rw [he] at hp2
              rcases List.mem_append.mp hp2 with hp3 | hp3
              · exact Or.inl hp3
              · simp only [List.mem_singleton] at hp3
                subst hp3
                exact Or.inr hr
          · exact Or.inr hne
        · rintro ⟨a0, ha0, hcond⟩
          rcases List.mem_cons.mp ha0 with rfl | ha0
          · exact absurd hcond.1 hr
          · obtain ⟨⟨nm, hwarn⟩, hcnt⟩ := e4 ⟨a0, ha0, hcond⟩
            refine ⟨⟨nm, by rw [hwarn, hw]⟩, ?_⟩
            rw [List.countP_append, hzero, hcnt]
        · intro hno
          obtain ⟨hwarn, hcnt⟩ := e5 (fun ⟨a0, ha0, hcond⟩ =>
            hno ⟨a0, List.mem_cons_of_mem a ha0, hcond⟩)
          refine ⟨by rw [hwarn, hw], ?_⟩
          rw [List.countP_append, hzero, hcnt]

/-- C5: when the remote reports not-found/forbidden for repository `R`
(and the other repositories in play resolve normally), a run that actually
checks at least one reference of `R` appends exactly one warning, issues
exactly one remote request for `R` regardless of how many references map to
it, emits no finding for `R`, and returns no error. -/
theorem c5_inaccessible_repo (remote : Remote) (actions : List ActionReference)
    (opts : CheckOptions) (R : String)
    (hin : repoInaccessibleFor remote R)
    (hok : ∀ a ∈ actions, repoFromAction a.name ≠ R →
      remoteOkFor remote (repoFromAction a.name))
    (hex : ∃ a ∈ actions, activeFor R opts a) :
    (CheckActionVersions remote actions opts).2.2.1 = none ∧
    (∃ nm, (CheckActionVersions remote actions opts).2.1.warnings =
      [warnInaccessible nm]) ∧
    (CheckActionVersions remote actions opts).2.2.2.countP (callOnRepo R) = 1 ∧
    (∀ o ∈ (CheckActionVersions remote actions opts).2.1.outdated,
      repoFromAction o.name ≠ R) ∧
    (∀ p ∈ (CheckActionVersions remote actions opts).2.1.shaPinned,
      repoFromAction p.name ≠ R) := by
  obtain ⟨hres, herr, hcalls⟩ := cav_components remote actions opts
  obtain ⟨e1, e2, e3, e4, -⟩ :=
    loop_before remote opts R hin actions initialState rfl rfl hok
  obtain ⟨⟨nm, hwarn⟩, hcnt⟩ := e4 hex
  refine ⟨by rw [herr, e1], ⟨nm, by rw [hres]; exact hwarn⟩,
    by rw [hcalls]; exact hcnt, ?_, ?_⟩
  · intro o ho
    rw [hres] at ho
    rcases e2 o ho with ho2 | hne
    · cases ho2
    · exact hne
  · intro p hp
    rw [hres] at hp
    rcases e3 p hp with hp2 | hne
    · cases hp2
    · exact hne

/-- The remote of the C5 witness: every repository lookup answers 404. -/
def c5Remote : Remote :=
  ⟨fun _ => .httpResp 404 none,
   fun _ => .httpResp 404 none,
   fun _ _ => .httpResp 200 (some ⟨"abc1234"⟩),
   fun _ _ _ => .httpResp 200 (some ⟨1, 0, "ahead"⟩)⟩

/-- C5 witness: two references of one inaccessible repository produce one
warning, one remote request, no finding and no error. -/
theorem c5_inaccessible_repo_witness :
    (CheckActionVersions c5Remote
        [⟨"o/r/s1", "v1", "f.yml"⟩, ⟨"o/r/s2", "v1", "g.yml"⟩] ⟨false, false⟩).2.2.1
        = none ∧
    (∃ nm, (CheckActionVersions c5Remote
        [⟨"o/r/s1", "v1", "f.yml"⟩, ⟨"o/r/s2", "v1", "g.yml"⟩] ⟨false, false⟩).2.1.warnings
        = [warnInaccessible nm]) ∧
    (CheckActionVersions c5Remote
        [⟨"o/r/s1", "v1", "f.yml"⟩, ⟨"o/r/s2", "v1", "g.yml"⟩]
        ⟨false, false⟩).2.2.2.countP (callOnRepo "o/r") = 1 ∧
    (∀ o ∈ (CheckActionVersions c5Remote
        [⟨"o/r/s1", "v1", "f.yml"⟩, ⟨"o/r/s2", "v1", "g.yml"⟩] ⟨false, false⟩).2.1.outdated,
      repoFromAction o.name ≠ "o/r") ∧
    (∀ p ∈ (CheckActionVersions c5Remote
        [⟨"o/r/s1", "v1", "f.yml"⟩, ⟨"o/r/s2", "v1", "g.yml"⟩] ⟨false, false⟩).2.1.shaPinned,
      repoFromAction p.name ≠ "o/r") :=
  c5_inaccessible_repo c5Remote
    [⟨"o/r/s1", "v1", "f.yml"⟩, ⟨"o/r/s2", "v1", "g.yml"⟩] ⟨false, false⟩ "o/r"
    ⟨⟨404, none, Or.inl rfl, rfl⟩, ⟨404, none, Or.inl rfl, rfl⟩⟩
    (by
      intro a ha hne
      simp only [List.mem_cons, List.not_mem_nil, or_false] at ha
      rcases ha with rfl | rfl
      · exact absurd (by decide) hne
      · exact absurd (by decide) hne)
    ⟨⟨"o/r/s1", "v1", "f.yml"⟩, by decide, by decide, by decide⟩

end Aver
